import Mathlib

/-!
Verification development for the RagDocs repository.

The frontend (Next.js/TypeScript under `src/frontend` and
`src/ragdocs_frontend`) is embedded directly from the source files.
The backend core (`ragdocs_api`: change tracker, document processor,
embedding indexer, retriever, synthesizer, orchestrator) is not part of
the provided sources, so it is modelled from the specification text;
those definitions say so in their doc comments.

TypeScript `number` is modelled as `Int`.
-/

namespace RagDocs

/-- A flat JSON atom: string, number, or array of strings.  Enough to model
the request and response payloads of the chat API. -/
inductive JAtom where
  | str : String → JAtom
  | num : Int → JAtom
  | arrStr : List String → JAtom
deriving DecidableEq, Repr

/-- A flat JSON object: field name to atom. -/
def Flat : Type := List (String × JAtom)

instance : DecidableEq Flat := by
  unfold Flat
  infer_instance

/-- A JSON value that is either an atom or an array of flat objects
(the `sources` array of the chat response). -/
inductive JVal where
  | atom : JAtom → JVal
  | arrObj : List Flat → JVal
deriving DecidableEq

/-- A JSON object with possibly nested array-of-object fields. -/
def JObj : Type := List (String × JVal)

instance : DecidableEq JObj := by
  unfold JObj
  infer_instance

/-- Field lookup in a JSON object, first match wins (as in JS). -/
def jlookup (o : JObj) (k : String) : Option JVal :=
  (o.find? (fun p => p.1 = k)).map (fun p => p.2)

/-- From `src/ragdocs_frontend/src/types/chat.ts`, interface `Source`:
seven fields, `score` being a TS number (modelled as `Int`). -/
structure Source where
  technology : String
  file_path : String
  section_title : String
  category : String
  score : Int
  content_preview : String
  full_content : String
deriving DecidableEq, Repr

/-- Serialization of a `Source` object: its fields in declaration order,
as JSON.stringify would emit them. -/
def Source.toFlat (s : Source) : Flat :=
  [("technology", .str s.technology),
   ("file_path", .str s.file_path),
   ("section_title", .str s.section_title),
   ("category", .str s.category),
   ("score", .num s.score),
   ("content_preview", .str s.content_preview),
   ("full_content", .str s.full_content)]

/-- From `chat.ts`, interface `ChatResponse`: conversation id, the answer
text under the field name `response`, and the cited sources. -/
structure ChatResponse where
  conversation_id : String
  response : String
  sources : List Source
deriving DecidableEq, Repr

/-- Serialization of a `ChatResponse`, fields in declaration order. -/
def ChatResponse.toJObj (r : ChatResponse) : JObj :=
  [("conversation_id", .atom (.str r.conversation_id)),
   ("response", .atom (.str r.response)),
   ("sources", .arrObj (r.sources.map Source.toFlat))]

/-- The validated chat request, as produced by the zod schema in
`src/frontend/src/app/(chat)/api/history/route.ts`. -/
structure ChatRequest where
  message : String
  conversation_id : Option String
  technologies : Option (List String)
  categories : Option (List String)
deriving DecidableEq, Repr

/-- The zod schema `chatRequestSchema` of `route.ts`: `message` is a
required string of length at least 1; `conversation_id` an optional
string; `technologies` and `categories` optional string arrays.  Fields
of the wrong type make the parse fail; unknown fields are stripped. -/
def chatRequestSchema (o : JObj) : Except String ChatRequest :=
  match jlookup o "message" with
  | some (.atom (.str m)) =>
    if m.length ≥ 1 then
      match jlookup o "conversation_id" with
      | some (.atom (.str cid)) => chatRequestRest o m (some cid)
      | none => chatRequestRest o m none
      | some _ => .error "conversation_id must be a string"
    else .error "Message is required"
  | some _ => .error "Message is required"
  | none => .error "Message is required"
where
  chatRequestRest (o : JObj) (m : String) (cid : Option String) :
      Except String ChatRequest :=
    match jlookup o "technologies" with
    | some (.atom (.arrStr ts)) => chatRequestCats o m cid (some ts)
    | none => chatRequestCats o m cid none
    | some _ => .error "technologies must be an array of strings"
  chatRequestCats (o : JObj) (m : String) (cid : Option String)
      (ts : Option (List String)) : Except String ChatRequest :=
    match jlookup o "categories" with
    | some (.atom (.arrStr cs)) => .ok ⟨m, cid, ts, cs⟩
    | none => .ok ⟨m, cid, ts, none⟩
    | some _ => .error "categories must be an array of strings"

/-- The POST handler of `route.ts`: validate the body with
`chatRequestSchema`; on schema failure answer 400; forward to the
backend (modelled as a function from the validated request to either an
error status with optional detail, or a `ChatResponse`); on backend
error mirror the status; on success answer 200 with the backend data. -/
def postChat (backend : ChatRequest → Except (Nat × Option String) ChatResponse)
    (o : JObj) : Nat × JObj :=
  match chatRequestSchema o with
  | .error _ => (400, [("error", .atom (.str "Invalid request data"))])
  | .ok req =>
    match backend req with
    | .error (s, detail) =>
      (s, [("error", .atom (.str (detail.getD "Backend API error"))),
           ("status", .atom (.num (Int.ofNat s)))])
    | .ok data => (200, data.toJObj)

/-- Transcribed from the spec's words (section 6, `POST query`): the six
source fields the spec lists. -/
def specSourceFields : List String :=
  ["technology", "file_path", "section_title", "category", "score",
   "content_preview"]

/-- Transcribed from the spec's words (section 6): the input field names
of `POST query`. -/
def specRequestFields : List String :=
  ["text", "conversation_id", "technologies", "categories"]

/-- Transcribed from the spec's words (section 6): the output field
names of `POST query`. -/
def specResponseFields : List String :=
  ["conversation_id", "answer", "sources"]

/-- JS `String.prototype.trim`: drop leading and trailing whitespace
characters.  Defined structurally over the character list. -/
def jsTrim (s : String) : String :=
  ⟨(((s.data.dropWhile Char.isWhitespace).reverse.dropWhile
      Char.isWhitespace).reverse)⟩

/-- Message roles, from `chat.ts` interface `Message`. -/
inductive Role where
  | user
  | assistant
  | system
deriving DecidableEq, Repr

/-- From `chat.ts`, interface `Message`.  The optional `sources` array is
modelled as a list that is empty when absent. -/
structure Message where
  id : String
  role : Role
  content : String
  sources : List Source
deriving DecidableEq, Repr

instance : Inhabited Message := ⟨⟨"", .user, "", []⟩⟩

/-- Outcome of a `useChat.append` or `useChat.reload` call: the TS
function resolves to `null`, to the conversation id, or (after a caught
error) to `undefined`, modelled as `errRet` carrying the error text. -/
inductive CallRet where
  | nullRet : CallRet
  | idRet : String → CallRet
  | errRet : String → CallRet
deriving DecidableEq, Repr

end RagDocs

namespace RagDocs.UseChat

/-- `useChat.append` from
`src/ragdocs_frontend/src/app/(chat)/chat/[id]/page.tsx` (use-chat
hook), as a pure state transformer on the `messages` list.  Blank
content returns `null` and changes nothing.  Otherwise a user message
with the trimmed content is appended first; then the fetch result
(supplied here as `result`: the backend response or a thrown
error/abort) either appends the assistant message and returns the
conversation id, or leaves the error — the optimistically appended user
message is never rolled back.  `fresh1`/`fresh2` stand for the
generated uuids. -/
def append (msgs : List Message) (content : String) (fresh1 fresh2 : String)
    (result : Except String ChatResponse) : List Message × CallRet :=
  if jsTrim content = "" then (msgs, .nullRet)
  else
    let userMessage : Message := ⟨fresh1, .user, jsTrim content, []⟩
    let msgs1 := msgs ++ [userMessage]
    match result with
    | .error e => (msgs1, .errRet e)
    | .ok data =>
      (msgs1 ++ [⟨fresh2, .assistant, data.response, data.sources⟩],
       .idRet data.conversation_id)

/-- The `reduceRight` in `useChat.reload`: index of the last message
with role `user`, if any (the greatest index whose message is a user
message). -/
def lastUserIdx : List Message → Option Nat
  | [] => none
  | m :: t =>
    match lastUserIdx t with
    | some j => some (j + 1)
    | none => if m.role = .user then some 0 else none

/-- `useChat.reload` from the use-chat hook: `null` on an empty list or
a list with no user message; otherwise truncate the list to end at the
last user message and re-submit that message's content via `append`. -/
def reload (msgs : List Message) (fresh1 fresh2 : String)
    (result : Except String ChatResponse) : List Message × CallRet :=
  if msgs.isEmpty then (msgs, .nullRet)
  else
    match lastUserIdx msgs with
    | none => (msgs, .nullRet)
    | some i =>
      append (msgs.take (i + 1)) (msgs.getD i default).content fresh1 fresh2
        result

/-- Number of messages with the given role. -/
def countRole (r : Role) (l : List Message) : Nat :=
  (l.filter (fun m => m.role = r)).length

/-- Whether the list contains two consecutive user messages with the
same content. -/
def hasDupUserPair : List Message → Bool
  | a :: b :: t =>
    (a.role = Role.user && b.role = Role.user && a.content = b.content) ||
      hasDupUserPair (b :: t)
  | _ => false

end RagDocs.UseChat

namespace RagDocs.InFlight

/-- Observable events of the request lifecycle in the use-chat hook.
`queued` and `rejected` are the behaviours the spec demands for a busy
conversation; they are part of the vocabulary so that their absence can
be stated. -/
inductive Ev where
  | started : Nat → Ev
  | aborted : Nat → Ev
  | finished : Nat → Ev
  | queued : Nat → Ev
  | rejected : Nat → Ev
deriving DecidableEq, Repr

/-- The hook's `abortControllerRef` holds at most one pending request;
the log records the lifecycle events in order. -/
structure OrchState where
  inFlight : Option Nat
  log : List Ev
deriving DecidableEq, Repr

/-- `useChat.append`, request-lifecycle view (page.tsx lines 163-168):
if a request is in flight its controller is aborted, then the new
request starts immediately. -/
def startTurn (s : OrchState) (r : Nat) : OrchState :=
  match s.inFlight with
  | some r0 => ⟨some r, s.log ++ [.aborted r0, .started r]⟩
  | none => ⟨some r, s.log ++ [.started r]⟩

/-- Completion of a request (the fetch resolves or throws); a completion
for a request that is no longer the pending one is a no-op. -/
def finishTurn (s : OrchState) (r : Nat) : OrchState :=
  if s.inFlight = some r then ⟨none, s.log ++ [.finished r]⟩ else s

/-- An operation on the hook: a new `append` call or a completion. -/
inductive Op where
  | start : Nat → Op
  | finish : Nat → Op
deriving DecidableEq, Repr

/-- Apply one operation. -/
def step (s : OrchState) : Op → OrchState
  | .start r => startTurn s r
  | .finish r => finishTurn s r

/-- The state after a sequence of operations from the initial state. -/
def run (ops : List Op) : OrchState :=
  ops.foldl step ⟨none, []⟩

/-- Requests that, according to the log, have started and neither been
aborted nor finished: folded left over the events. -/
def activeOf (log : List Ev) : List Nat :=
  log.foldl
    (fun acc e =>
      match e with
      | .started r => acc ++ [r]
      | .aborted r => acc.filter (fun x => x ≠ r)
      | .finished r => acc.filter (fun x => x ≠ r)
      | .queued _ => acc
      | .rejected _ => acc)
    []

end RagDocs.InFlight

namespace RagDocs.Backend

/-- Modelled from the spec: the backend content hash of section 3
(`ragdocs_api` is not among the provided sources).  A concrete
deterministic hash of a string, reduced modulo 2 to the 32. -/
def contentHash (s : String) : Nat :=
  s.data.foldl (fun a c => (a * 131 + c.toNat) % 4294967296) 7

/-- Modelled from the spec: a source document (section 3), identified by
path and technology tag, with a category and raw content. -/
structure Doc where
  path : String
  technology : String
  category : String
  content : String
deriving DecidableEq, Repr

/-- Chunk identity: (document path, section ordinal), per section 3. -/
def ChunkId : Type := String × Nat

instance : DecidableEq ChunkId := by
  unfold ChunkId
  infer_instance

instance : Repr ChunkId := by
  unfold ChunkId
  infer_instance

/-- Modelled from the spec: a chunk (section 3) — stable id, text,
section title, technology, category, sequence position. -/
structure Chunk where
  id : ChunkId
  text : String
  title : String
  technology : String
  category : String
  pos : Nat
deriving DecidableEq, Repr

/-- A markdown heading line: the first character is a hash mark. -/
def isHeading (l : String) : Bool :=
  match l.data with
  | c :: _ => c = '#'
  | [] => false

/-- Split a string into its lines at newline characters (the semantics
of splitting on the newline separator), structurally over the character
list. -/
def splitLines (s : String) : List String :=
  splitLinesGo s.data
where
  splitLinesGo : List Char → List String
    | [] => [""]
    | c :: cs =>
      match splitLinesGo cs, decide (c = '\n') with
      | [], _ => []
      | s0 :: t, true => "" :: s0 :: t
      | s0 :: t, false => String.mk (c :: s0.data) :: t

/-- Group lines into (heading, body) sections, splitting at heading
lines; leading lines before the first heading form a section with an
empty title.  Structural recursion from the right: a heading line
captures the still-untitled head section as its body; a plain line is
prepended to the untitled head section or starts one. -/
def splitSections : List String → List (String × String)
  | [] => []
  | l :: rest =>
    match splitSections rest, isHeading l with
    | [], true => [(l, "")]
    | [], false => [("", l)]
    | ("", body) :: t, true => (l, body) :: t
    | ("", body) :: t, false => ("", l ++ "\n" ++ body) :: t
    | r, true => (l, "") :: r
    | r, false => ("", l) :: r

/-- Modelled from the spec: the document processor of section 4.2 —
`parse(document)` yields the ordered chunk sequence, split at heading
boundaries, chunk ids derived from (document id, section ordinal).  The
further paragraph-level split of oversized sections and the stripping of
front matter are not modelled; the claims under verification do not
depend on them. -/
def processDoc (d : Doc) : List Chunk :=
  (splitSections (splitLines d.content)).enum.map
    (fun p => ⟨(d.path, p.1), p.2.2, p.2.1, d.technology, d.category, p.1⟩)

/-- Modelled from the spec: an EmbeddingRecord (section 3) — vector plus
the content hash copied from the owning chunk. -/
structure EmbRec where
  vec : List Int
  hash : Nat
deriving DecidableEq, Repr

/-- Modelled from the spec: a manifest entry (section 3) — the
document's content hash and the set of chunk ids currently indexed. -/
structure MEntry where
  docHash : Nat
  chunkIds : List ChunkId
deriving DecidableEq, Repr

/-- Association-list lookup with decidable key equality; first match
wins. -/
def fLookup {κ ν : Type} [DecidableEq κ] (k : κ) : List (κ × ν) → Option ν
  | [] => none
  | (k', v) :: t => if k' = k then some v else fLookup k t

/-- Remove every binding of a key. -/
def eraseKey {κ ν : Type} [DecidableEq κ] (k : κ) (l : List (κ × ν)) :
    List (κ × ν) :=
  l.filter (fun p => p.1 ≠ k)

/-- Modelled from the spec: the indexer's persistent state (section 3) —
the manifest (document path to entry) and the vector index (chunk id to
EmbeddingRecord). -/
structure IState where
  manifest : List (String × MEntry)
  index : List (ChunkId × EmbRec)
deriving DecidableEq, Repr

/-- The initial, empty state. -/
def emptyState : IState := ⟨[], []⟩

/-- Remove all index records whose chunk id belongs to a document
path. -/
def erasePath (p : String) (idx : List (ChunkId × EmbRec)) :
    List (ChunkId × EmbRec) :=
  idx.filter (fun e => e.1.1 ≠ p)

/-- Modelled from the spec: deletion propagation (section 4.3) — for a
deleted document, remove all its chunk ids' EmbeddingRecords and drop
the manifest entry. -/
def removeDoc (st : IState) (p : String) : IState :=
  ⟨eraseKey p st.manifest, erasePath p st.index⟩

/-- Modelled from the spec: the per-chunk re-embedding decision of
section 4.3 — a chunk id already present with a matching content hash
keeps its record (flagged `false`); otherwise the chunk's text is
embedded (flagged `true`), and an embedding failure fails the whole
document.  Produces, per chunk in order, (chunk id, record, freshly
embedded flag). -/
def planChunk (embedF : String → Option (List Int))
    (idx : List (ChunkId × EmbRec)) (c : Chunk) : Option (EmbRec × Bool) :=
  match fLookup c.id idx with
  | some r =>
    if r.hash = contentHash c.text then some (r, false)
    else (embedF c.text).map (fun v => (⟨v, contentHash c.text⟩, true))
  | none => (embedF c.text).map (fun v => (⟨v, contentHash c.text⟩, true))

/-- The per-document embedding plan, chunk by chunk in order; an
embedding failure for any chunk fails the document. -/
def buildRecs (embedF : String → Option (List Int))
    (idx : List (ChunkId × EmbRec)) :
    List Chunk → Option (List (ChunkId × EmbRec × Bool))
  | [] => some []
  | c :: cs =>
    match planChunk embedF idx c, buildRecs embedF idx cs with
    | some rb, some rest => some ((c.id, rb) :: rest)
    | _, _ => none

/-- Modelled from the spec: the per-document apply of section 4.3 —
re-parse the document, re-embed only stale or new chunks, drop records
of chunk ids no longer produced, and commit the manifest entry (new
content hash, new chunk id set) last.  On an embedding failure the
whole document is not applied (`none`) and the caller keeps the old
state, which is the atomicity demanded by the spec.  Returns the new
state and the list of chunk ids that were actually embedded. -/
def applyDoc (embedF : String → Option (List Int)) (st : IState) (d : Doc) :
    Option (IState × List ChunkId) :=
  match buildRecs embedF st.index (processDoc d) with
  | none => none
  | some recs =>
    some
      (⟨(d.path, ⟨contentHash d.content, recs.map (fun rb => rb.1)⟩) ::
          eraseKey d.path st.manifest,
        recs.map (fun rb => (rb.1, rb.2.1)) ++ erasePath d.path st.index⟩,
       (recs.filter (fun rb => rb.2.2)).map (fun rb => rb.1))

/-- The state the caller holds after a per-document apply: the new
state on success, the old state on failure. -/
def applyDocOr (embedF : String → Option (List Int)) (st : IState)
    (d : Doc) : IState :=
  match applyDoc embedF st d with
  | some (st', _) => st'
  | none => st

/-- Modelled from the spec: the change tracker's output partition
(section 4.1). -/
structure Partition where
  added : List Doc
  modified : List Doc
  unchanged : List Doc
  deleted : List String
deriving DecidableEq, Repr

/-- One step of the apply fold: apply a document to the accumulated
state, collecting the embedded chunk ids; a per-document failure skips
the document and the run continues (section 7). -/
def applyStep (embedF : String → Option (List Int))
    (acc : IState × List ChunkId) (d : Doc) : IState × List ChunkId :=
  match applyDoc embedF acc.1 d with
  | some (st', emb) => (st', acc.2 ++ emb)
  | none => acc

/-- Modelled from the spec: `apply(partition)` of section 4.3 — process
deletions, then apply each added and modified document.  Returns the
new state and all chunk ids embedded during the pass. -/
def applyP (embedF : String → Option (List Int)) (st : IState)
    (part : Partition) : IState × List ChunkId :=
  (part.added ++ part.modified).foldl (applyStep embedF)
    (part.deleted.foldl removeDoc st, [])

/-- Modelled from the spec: the change tracker (section 4.1) — a
document is added iff no manifest entry exists, modified iff its fresh
content hash differs from the recorded one, unchanged otherwise; a
manifest path with no corresponding file is deleted.  Pure: it does not
touch the manifest. -/
def track (m : List (String × MEntry)) (fs : List Doc) : Partition where
  added := fs.filter (fun d => fLookup d.path m = none)
  modified := fs.filter (fun d =>
    match fLookup d.path m with
    | some e => e.docHash ≠ contentHash d.content
    | none => False)
  unchanged := fs.filter (fun d =>
    match fLookup d.path m with
    | some e => e.docHash = contentHash d.content
    | none => False)
  deleted := (m.map (fun p => p.1)).filter (fun p =>
    fs.all (fun d => d.path ≠ p))

/-- Modelled from the spec: one full indexing pass — a Change-Tracker
run over the filesystem followed by apply (sections 4.1 and 4.3). -/
def fullPass (embedF : String → Option (List Int)) (st : IState)
    (fs : List Doc) : IState :=
  (applyP embedF st (track st.manifest fs)).1

/-- States reachable from the empty state by apply calls. -/
inductive Reach (embedF : String → Option (List Int)) : IState → Prop where
  | init : Reach embedF emptyState
  | step (st : IState) (part : Partition) :
      Reach embedF st → Reach embedF (applyP embedF st part).1

/-- All chunk ids recorded in the manifest. -/
def manifestIds (st : IState) : List ChunkId :=
  st.manifest.flatMap (fun p => p.2.chunkIds)

/-- All chunk ids carrying an EmbeddingRecord. -/
def indexKeys (st : IState) : List ChunkId :=
  st.index.map (fun e => e.1)

/-- Number of EmbeddingRecords held by a chunk id. -/
def countKey (cid : ChunkId) (idx : List (ChunkId × EmbRec)) : Nat :=
  (idx.filter (fun e => e.1 = cid)).length

/-- A document's view of the state: its manifest entry and its index
records. -/
def docView (st : IState) (p : String) :
    Option MEntry × List (ChunkId × EmbRec) :=
  (fLookup p st.manifest, st.index.filter (fun e => e.1.1 = p))

/-- The structural well-formedness invariant of the indexer state:
manifest keys and index keys are duplicate-free, every manifest entry
owns only chunk ids of its own document (duplicate-free as well), and
the manifest's chunk ids and the index's chunk ids coincide. -/
def WFState (st : IState) : Prop :=
  (st.manifest.map (fun p => p.1)).Nodup
  ∧ (indexKeys st).Nodup
  ∧ (∀ p e, (p, e) ∈ st.manifest →
      e.chunkIds.Nodup ∧ ∀ cid ∈ e.chunkIds, cid.1 = p)
  ∧ (∀ cid : ChunkId, cid ∈ manifestIds st ↔ cid ∈ indexKeys st)

/-- A retrieval hit: a chunk with its relevance score. -/
structure Hit where
  chunk : Chunk
  score : Int
deriving DecidableEq, Repr

/-- Modelled from the spec: the retriever's filters (section 4.4);
an empty list means the dimension is unconstrained. -/
structure Filters where
  technologies : List String
  categories : List String
deriving DecidableEq, Repr

/-- A chunk passes the filters iff each non-empty filter dimension
contains the chunk's value. -/
def matchesFilter (f : Filters) (c : Chunk) : Bool :=
  (f.technologies.isEmpty || f.technologies.contains c.technology) &&
    (f.categories.isEmpty || f.categories.contains c.category)

/-- Inner product, the vector-similarity score. -/
def dot (a b : List Int) : Int :=
  (a.zip b).foldl (fun s p => s + p.1 * p.2) 0

/-- The deterministic ranking key of section 4.4: score descending, ties
broken by (technology name, chunk sequence position). -/
def rankKey (h : Hit) : Lex (Int × Lex (String × Nat)) :=
  toLex (-h.score, toLex (h.chunk.technology, h.chunk.pos))

/-- The ranking order on hits. -/
def rankLE (a b : Hit) : Prop :=
  rankKey a ≤ rankKey b

instance : DecidableRel rankLE := fun a b =>
  inferInstanceAs (Decidable (rankKey a ≤ rankKey b))

instance : IsTotal Hit rankLE :=
  ⟨fun a b => le_total (rankKey a) (rankKey b)⟩

instance : IsTrans Hit rankLE :=
  ⟨fun _ _ _ hab hbc => le_trans hab hbc⟩

/-- The filtered, scored candidate list of a search: the technology and
category filters are applied before scoring. -/
def searchCandidates (corpus : List (Chunk × List Int))
    (embedQ : String → List Int) (q : String) (f : Filters) : List Hit :=
  (corpus.filter (fun cv => matchesFilter f cv.1)).map
    (fun cv => ⟨cv.1, dot (embedQ q) cv.2⟩)

/-- Modelled from the spec: the retriever's `search` (section 4.4) —
embed the query, pre-filter the candidate chunks, rank by score
descending with the deterministic tie-break, and return the first
`top_k`. -/
def search (corpus : List (Chunk × List Int)) (embedQ : String → List Int)
    (q : String) (f : Filters) (k : Nat) : List Hit :=
  ((searchCandidates corpus embedQ q f).insertionSort rankLE).take k

/-- A conversation turn as seen by the synthesizer: role and content. -/
structure STurn where
  role : Role
  content : String
deriving DecidableEq, Repr

/-- Modelled from the spec: the grounded prompt of section 4.5 — the
retrieved chunks as labeled, attributable context blocks followed by
the query. -/
def buildPrompt (q : String) (retrieved : List Hit) : String :=
  (retrieved.foldl
    (fun acc h =>
      acc ++ "[" ++ h.chunk.technology ++ " | " ++ h.chunk.id.1 ++ " | " ++
        h.chunk.title ++ "]\n" ++ h.chunk.text ++ "\n")
    "Context:\n") ++ "Question: " ++ q

/-- Modelled from the spec: the answer synthesizer (section 4.5) —
invoke the language-model capability on the grounded prompt and the
dialogue history; on model failure return a typed failure and no
answer; on success surface the subset of the retrieved chunks the
model decided to cite (`select`). -/
def synthesize (generate : String → List STurn → Option String)
    (select : Hit → Bool) (q : String) (hist : List STurn)
    (retrieved : List Hit) : Except Unit (String × List Hit) :=
  match generate (buildPrompt q retrieved) hist with
  | none => .error ()
  | some ans => .ok (ans, retrieved.filter select)

/-- A conversation turn: role, content, and for assistant turns the
cited sources. -/
structure Turn where
  role : Role
  content : String
  sources : List Hit
deriving DecidableEq, Repr

/-- Modelled from the spec: `handle_turn` of section 4.6 — resolve or
create the conversation id, retrieve, synthesize against the prior
turns, and on success append the user turn and the assistant turn (with
its sources) to the conversation; on synthesis failure nothing is
appended and the failure propagates.  Returns the updated conversation
store with the (conversation id, answer, sources) triple. -/
def handle_turn (generate : String → List STurn → Option String)
    (select : Hit → Bool) (corpus : List (Chunk × List Int))
    (embedQ : String → List Int) (convs : List (String × List Turn))
    (cid? : Option String) (freshId : String) (text : String) (f : Filters)
    (k : Nat) :
    Except Unit (List (String × List Turn) × String × String × List Hit) :=
  let cid := cid?.getD freshId
  let prior := (fLookup cid convs).getD []
  let retrieved := search corpus embedQ text f k
  match synthesize generate select text
      (prior.map (fun t => ⟨t.role, t.content⟩)) retrieved with
  | .error e => .error e
  | .ok (ans, used) =>
    .ok ((cid, prior ++ [⟨.user, text, []⟩, ⟨.assistant, ans, used⟩]) ::
          eraseKey cid convs,
         cid, ans, used)

end RagDocs.Backend

namespace RagDocs.Backend

theorem fLookup_cons_self {κ ν : Type} [DecidableEq κ] (k : κ) (v : ν)
    (l : List (κ × ν)) : fLookup k ((k, v) :: l) = some v := by
  simp [fLookup]

theorem fLookup_cons_ne {κ ν : Type} [DecidableEq κ] {k k' : κ} (v : ν)
    (l : List (κ × ν)) (h : k ≠ k') :
    fLookup k' ((k, v) :: l) = fLookup k' l := by
  simp [fLookup, h]

theorem fLookup_eraseKey_ne {κ ν : Type} [DecidableEq κ] {k k' : κ}
    (l : List (κ × ν)) (h : k' ≠ k) :
    fLookup k' (eraseKey k l) = fLookup k' l := by
  induction l with
  | nil => rfl
  | cons e t ih =>
    obtain ⟨a, b⟩ := e
    by_cases ha : a = k
    · have h1 : eraseKey k ((a, b) :: t) = eraseKey k t := by
        simp [eraseKey, ha]
      have hk' : a ≠ k' := by
        rw [ha]
        exact fun hx => h hx.symm
      rw [h1, fLookup_cons_ne _ _ hk', ih]
    · have h1 : eraseKey k ((a, b) :: t) = (a, b) :: eraseKey k t := by
        simp [eraseKey, ha]
      by_cases ha' : a = k'
      · subst ha'
        rw [h1, fLookup_cons_self, fLookup_cons_self]
      · rw [h1, fLookup_cons_ne _ _ ha', fLookup_cons_ne _ _ ha', ih]

theorem fLookup_eraseKey_self {κ ν : Type} [DecidableEq κ] (k : κ)
    (l : List (κ × ν)) : fLookup k (eraseKey k l) = none := by
  induction l with
  | nil => rfl
  | cons e t ih =>
    by_cases he : e.1 = k
    · simpa [eraseKey, he] using ih
    · simpa [eraseKey, fLookup, he] using ih

theorem fLookup_eq_some_mem {κ ν : Type} [DecidableEq κ] {k : κ} {v : ν}
    {l : List (κ × ν)} (h : fLookup k l = some v) : (k, v) ∈ l := by
  induction l with
  | nil => simp [fLookup] at h
  | cons e t ih =>
    by_cases he : e.1 = k
    · cases e with
      | mk a b =>
        simp only at he
        subst he
        simp [fLookup] at h
        subst h
        exact List.mem_cons_self _ _
    · simp [fLookup, he] at h
      exact List.mem_cons_of_mem _ (ih h)

theorem fLookup_mem_of_nodup {κ ν : Type} [DecidableEq κ] {k : κ} {v : ν}
    {l : List (κ × ν)} (hn : (l.map (fun e => e.1)).Nodup)
    (hm : (k, v) ∈ l) : fLookup k l = some v := by
  induction l with
  | nil => simp at hm
  | cons e t ih =>
    simp only [List.map_cons, List.nodup_cons] at hn
    rcases List.mem_cons.mp hm with h | h
    · subst h
      exact fLookup_cons_self _ _ _
    · have hk : e.1 ≠ k := by
        intro hx
        exact hn.1 (hx ▸ (List.mem_map.mpr ⟨(k, v), h, rfl⟩))
      rw [show e = (e.1, e.2) from rfl, fLookup_cons_ne _ _ hk]
      exact ih hn.2 h

theorem fLookup_append_left_none {κ ν : Type} [DecidableEq κ] {k : κ}
    {l1 : List (κ × ν)} (l2 : List (κ × ν)) (h : ∀ e ∈ l1, e.1 ≠ k) :
    fLookup k (l1 ++ l2) = fLookup k l2 := by
  induction l1 with
  | nil => rfl
  | cons e t ih =>
    have he : e.1 ≠ k := h e (List.mem_cons_self _ _)
    simp only [List.cons_append]
    rw [show e = (e.1, e.2) from rfl, fLookup_cons_ne _ _ he]
    exact ih (fun x hx => h x (List.mem_cons_of_mem _ hx))

end RagDocs.Backend

namespace RagDocs

/-- C1 counterexample: the claim's field inventory fails on the code at a
concrete instance.  The serialized `Source` carries a seventh field
`full_content` that the claimed set lacks; the request schema rejects an
object carrying the claimed field `text` and requires `message` instead;
and the response carries the answer under `response`, not `answer`. -/
theorem c1_source_fields_counterexample :
    ("full_content" ∈
        (Source.toFlat ⟨"qdrant", "docs/a.md", "Config", "guides", 3,
          "prev", "full"⟩).map (fun p => p.1)
      ∧ "full_content" ∉ specSourceFields)
    ∧ (chatRequestSchema [("text", .atom (.str "hello"))]).isOk = false
    ∧ (chatRequestSchema [("message", .atom (.str "hello"))]).isOk = true
    ∧ ("answer" ∉
        (ChatResponse.toJObj ⟨"c1", "the answer", []⟩).map (fun p => p.1)
      ∧ "response" ∈
        (ChatResponse.toJObj ⟨"c1", "the answer", []⟩).map (fun p => p.1)) := by
  refine ⟨⟨?_, ?_⟩, ?_, ?_, ?_, ?_⟩ <;> decide

/-- C1 amended: the exposed query endpoint accepts an input object with
fields (message, conversation_id?, technologies?, categories?), rejects
an input without `message`, and on success returns an object with fields
(conversation_id, response, sources), where every serialized source
carries exactly the fields (technology, file_path, section_title,
category, score, content_preview, full_content). -/
theorem c1_endpoint_shape :
    (∀ s : Source, (Source.toFlat s).map (fun p => p.1)
      = ["technology", "file_path", "section_title", "category", "score",
         "content_preview", "full_content"])
    ∧ (∀ r : ChatResponse, (ChatResponse.toJObj r).map (fun p => p.1)
      = ["conversation_id", "response", "sources"])
    ∧ (∀ (m cid : String) (ts cs : List String), 1 ≤ m.length →
        chatRequestSchema
          [("message", .atom (.str m)), ("conversation_id", .atom (.str cid)),
           ("technologies", .atom (.arrStr ts)),
           ("categories", .atom (.arrStr cs))]
          = .ok ⟨m, some cid, some ts, some cs⟩)
    ∧ (∀ o : JObj, jlookup o "message" = none →
        (chatRequestSchema o).isOk = false)
    ∧ (∀ (backend : ChatRequest → Except (Nat × Option String) ChatResponse)
        (o : JObj) (req : ChatRequest) (r : ChatResponse),
        chatRequestSchema o = .ok req → backend req = .ok r →
        postChat backend o = (200, r.toJObj)) := by
  refine ⟨fun s => rfl, fun r => rfl, ?_, ?_, ?_⟩
  · intro m cid ts cs h
    simp [chatRequestSchema, jlookup, List.find?,
      chatRequestSchema.chatRequestRest, chatRequestSchema.chatRequestCats, h]
  · intro o h
    simp [chatRequestSchema, h, Except.isOk, Except.toBool]
  · intro backend o req r h1 h2
    simp [postChat, h1, h2]

/-- C1 witness: the amended endpoint-shape theorem applied at a concrete
request. -/
theorem c1_endpoint_shape_witness :
    chatRequestSchema
      [("message", .atom (.str "hi")), ("conversation_id", .atom (.str "c7")),
       ("technologies", .atom (.arrStr ["qdrant"])),
       ("categories", .atom (.arrStr []))]
      = .ok ⟨"hi", some "c7", some ["qdrant"], some []⟩ :=
  c1_endpoint_shape.2.2.1 "hi" "c7" ["qdrant"] [] (by decide)

end RagDocs

namespace RagDocs.UseChat

/-- C2 counterexample: a turn whose fetch fails (covering both a thrown
error and a caller abort, which surfaces as a thrown AbortError) does
leave a turn behind — starting from the empty message list, the failed
call leaves the optimistically appended user turn in the sequence, so
the sequence is not what it was before the call. -/
theorem c2_failed_turn_counterexample :
    (append [] "hi" "u1" "a1" (.error "aborted")).1
        = [⟨"u1", .user, "hi", []⟩]
      ∧ (append [] "hi" "u1" "a1" (.error "aborted")).1 ≠ [] := by
  refine ⟨?_, ?_⟩ <;> decide

/-- C2 amended: on a cancelled or failed synthesis no assistant turn is
appended and nothing is fabricated, but the user turn — appended
optimistically before the request — remains: the message sequence after
the call is exactly the prior sequence with the user turn (trimmed
content) appended, so it is not restored to its pre-call value. -/
theorem c2_failed_turn_appends_user_only :
    ∀ (msgs : List Message) (content f1 f2 e : String),
    RagDocs.jsTrim content ≠ "" →
    append msgs content f1 f2 (.error e)
        = (msgs ++ [⟨f1, .user, RagDocs.jsTrim content, []⟩], .errRet e)
      ∧ countRole .assistant (append msgs content f1 f2 (.error e)).1
        = countRole .assistant msgs
      ∧ countRole .user (append msgs content f1 f2 (.error e)).1
        = countRole .user msgs + 1 := by
  intro msgs content f1 f2 e h
  have h1 : append msgs content f1 f2 (.error e)
      = (msgs ++ [⟨f1, .user, RagDocs.jsTrim content, []⟩], .errRet e) := by
    simp [append, h]
  refine ⟨h1, ?_, ?_⟩ <;>
    simp [h1, countRole, List.filter_append]

/-- C2 witness: the amended theorem applied at a concrete failing
call. -/
theorem c2_failed_turn_appends_user_only_witness :
    append [] " hi " "u1" "a1" (.error "boom")
      = ([⟨"u1", .user, "hi", []⟩], .errRet "boom") :=
  (c2_failed_turn_appends_user_only [] " hi " "u1" "a1" "boom"
    (by decide)).1

end RagDocs.UseChat

namespace RagDocs.Backend

/-- C4: grounding — every source the synthesizer surfaces is one of the
retrieved chunks passed to that very call; nothing outside the retrieved
set can be cited.  Spec-modelled (the synthesizer is backend code not in
the provided sources). -/
theorem c4_grounding :
    ∀ (generate : String → List STurn → Option String) (select : Hit → Bool)
      (q : String) (hist : List STurn) (retrieved : List Hit)
      (ans : String) (used : List Hit),
    synthesize generate select q hist retrieved = .ok (ans, used) →
    ∀ s ∈ used, s ∈ retrieved := by
  intro generate select q hist retrieved ans used h s hs
  unfold synthesize at h
  cases hg : generate (buildPrompt q retrieved) hist with
  | none => rw [hg] at h; exact absurd h (by simp)
  | some a =>
    rw [hg] at h
    simp only [Except.ok.injEq, Prod.mk.injEq] at h
    rw [← h.2] at hs
    exact List.mem_of_mem_filter hs

/-- C4 witness: the grounding theorem applied to a concrete synthesis
call. -/
theorem c4_grounding_witness :
    (⟨⟨("a.md", 0), "text", "# T", "qdrant", "guides", 0⟩, 5⟩ : Hit)
      ∈ [(⟨⟨("a.md", 0), "text", "# T", "qdrant", "guides", 0⟩, 5⟩ : Hit)] :=
  c4_grounding (fun _ _ => some "ans") (fun _ => true) "q" []
    [⟨⟨("a.md", 0), "text", "# T", "qdrant", "guides", 0⟩, 5⟩] "ans"
    [⟨⟨("a.md", 0), "text", "# T", "qdrant", "guides", 0⟩, 5⟩]
    rfl
    ⟨⟨("a.md", 0), "text", "# T", "qdrant", "guides", 0⟩, 5⟩
    (by decide)

end RagDocs.Backend

namespace RagDocs.Backend

/-- C3: a successful `handle_turn` appends exactly one user turn (with
the submitted text) followed by exactly one assistant turn carrying the
response's sources to the resolved conversation, leaves every other
conversation untouched, and returns the triple of resolved-or-created
conversation id, answer text and sources.  Spec-modelled (the
orchestrator is backend code not in the provided sources). -/
theorem c3_handle_turn_appends_pair :
    ∀ (generate : String → List STurn → Option String) (select : Hit → Bool)
      (corpus : List (Chunk × List Int)) (embedQ : String → List Int)
      (convs : List (String × List Turn)) (cid? : Option String)
      (freshId text : String) (f : Filters) (k : Nat)
      (convs' : List (String × List Turn)) (cid ans : String)
      (used : List Hit),
    handle_turn generate select corpus embedQ convs cid? freshId text f k
      = .ok (convs', cid, ans, used) →
    cid = cid?.getD freshId
    ∧ fLookup cid convs'
      = some ((fLookup cid convs).getD []
          ++ [⟨.user, text, []⟩, ⟨.assistant, ans, used⟩])
    ∧ ∀ other, other ≠ cid → fLookup other convs' = fLookup other convs := by
  intro generate select corpus embedQ convs cid? freshId text f k
    convs' cid ans used h
  unfold handle_turn at h
  dsimp only at h
  cases hs : synthesize generate select text
      (((fLookup (cid?.getD freshId) convs).getD []).map
        (fun t => ⟨t.role, t.content⟩))
      (search corpus embedQ text f k) with
  | error e => rw [hs] at h; exact absurd h (by simp)
  | ok p =>
    obtain ⟨a, u⟩ := p
    rw [hs] at h
    simp only [Except.ok.injEq, Prod.mk.injEq] at h
    obtain ⟨hc, hcid, hans, hused⟩ := h
    subst hcid hans hused
    refine ⟨rfl, ?_, ?_⟩
    · rw [← hc, fLookup_cons_self]
    · intro other hother
      rw [← hc, fLookup_cons_ne _ _ (fun hx => hother hx.symm),
        fLookup_eraseKey_ne _ hother]

/-- C3 witness: the theorem applied to a concrete successful turn on a
fresh conversation. -/
theorem c3_handle_turn_appends_pair_witness :
    fLookup "c1"
        [("c1", [(⟨.user, "q", []⟩ : Turn), ⟨.assistant, "ans", []⟩])]
      = some ([]
          ++ [(⟨.user, "q", []⟩ : Turn), ⟨.assistant, "ans", []⟩]) := by
  have h := c3_handle_turn_appends_pair (fun _ _ => some "ans")
    (fun _ => true) [] (fun _ => []) [] none "c1" "q" ⟨[], []⟩ 0
    [("c1", [⟨.user, "q", []⟩, ⟨.assistant, "ans", []⟩])] "c1" "ans" []
    rfl
  exact h.2.1

end RagDocs.Backend

namespace RagDocs.UseChat

theorem lastUserIdx_spec :
    ∀ (msgs : List Message) (i : Nat), lastUserIdx msgs = some i →
    i < msgs.length ∧ (msgs.getD i default).role = .user := by
  intro msgs
  induction msgs with
  | nil => intro i h; exact absurd h (by simp [lastUserIdx])
  | cons m t ih =>
    intro i h
    unfold lastUserIdx at h
    cases ht : lastUserIdx t with
    | some j =>
      rw [ht] at h
      simp only [Option.some.injEq] at h
      subst h
      obtain ⟨h1, h2⟩ := ih j ht
      exact ⟨by simpa using Nat.succ_lt_succ h1, by simpa using h2⟩
    | none =>
      rw [ht] at h
      by_cases hm : m.role = .user
      · simp only [hm, if_pos] at h
        simp only [Option.some.injEq] at h
        subst h
        exact ⟨Nat.succ_pos _, hm⟩
      · simp [hm] at h

/-- C10 counterexample: at the concrete list holding one user message
with untrimmed content, a successful reload does NOT produce two
consecutive user messages with the same content — `append` re-submits
the trimmed content, so the two consecutive user messages differ
(" hi " versus "hi"). -/
theorem c10_reload_counterexample :
    (reload [⟨"m1", .user, " hi ", []⟩] "u2" "a1"
        (.ok ⟨"c1", "ans", []⟩)).1
      = [⟨"m1", .user, " hi ", []⟩, ⟨"u2", .user, "hi", []⟩,
         ⟨"a1", .assistant, "ans", []⟩]
    ∧ hasDupUserPair
        (reload [⟨"m1", .user, " hi ", []⟩] "u2" "a1"
          (.ok ⟨"c1", "ans", []⟩)).1 = false := by
  refine ⟨?_, ?_⟩ <;> decide

/-- C10 amended: for a list with no user message (or empty), reload
returns null and leaves the list unchanged.  For a list whose last user
message has non-blank content, reload truncates the list to end at that
message and re-submits its content via append, which pushes a fresh
user message carrying the TRIMMED content (identical to the original
only when that content was already trimmed); after a successful backend
response the list is the truncation, then that fresh user message, then
the new assistant message.  When the last user message's content is
blank, the list is merely truncated and null is returned. -/
theorem c10_reload_resubmits_trimmed :
    (∀ (msgs : List Message) (f1 f2 : String)
      (res : Except String ChatResponse),
      lastUserIdx msgs = none → reload msgs f1 f2 res = (msgs, .nullRet))
    ∧ (∀ (msgs : List Message) (i : Nat) (f1 f2 : String)
        (data : ChatResponse),
        lastUserIdx msgs = some i →
        RagDocs.jsTrim (msgs.getD i default).content ≠ "" →
        reload msgs f1 f2 (.ok data)
          = (msgs.take (i + 1)
              ++ [⟨f1, .user, RagDocs.jsTrim (msgs.getD i default).content, []⟩,
                  ⟨f2, .assistant, data.response, data.sources⟩],
             .idRet data.conversation_id)
        ∧ (msgs.getD i default).role = .user)
    ∧ (∀ (msgs : List Message) (i : Nat) (f1 f2 : String)
        (res : Except String ChatResponse),
        lastUserIdx msgs = some i →
        RagDocs.jsTrim (msgs.getD i default).content = "" →
        reload msgs f1 f2 res = (msgs.take (i + 1), .nullRet)) := by
  refine ⟨?_, ?_, ?_⟩
  · intro msgs f1 f2 res h
    cases msgs with
    | nil => simp [reload]
    | cons m t => simp [reload, h]
  · intro msgs i f1 f2 data h htrim
    have hrole := (lastUserIdx_spec msgs i h).2
    refine ⟨?_, hrole⟩
    simp only [List.getD_eq_getElem?_getD] at htrim
    cases msgs with
    | nil => exact absurd h (by simp [lastUserIdx])
    | cons m t =>
      simp only [reload, List.isEmpty_cons, Bool.false_eq_true, if_false, h]
      simp [append, htrim]
  · intro msgs i f1 f2 res h htrim
    simp only [List.getD_eq_getElem?_getD] at htrim
    cases msgs with
    | nil => exact absurd h (by simp [lastUserIdx])
    | cons m t =>
      simp only [reload, List.isEmpty_cons, Bool.false_eq_true, if_false, h]
      simp [append, htrim]

/-- C10 witness: the amended theorem applied at a concrete list whose
last user message has untrimmed content. -/
theorem c10_reload_resubmits_trimmed_witness :
    reload [⟨"m1", .user, " hi ", []⟩] "u2" "a1" (.ok ⟨"c1", "ans", []⟩)
      = ([⟨"m1", .user, " hi ", []⟩, ⟨"u2", .user, "hi", []⟩,
          ⟨"a1", .assistant, "ans", []⟩], .idRet "c1") := by
  have h := (c10_reload_resubmits_trimmed.2.1
    [⟨"m1", .user, " hi ", []⟩] 0 "u2" "a1" ⟨"c1", "ans", []⟩
    (by decide) (by decide)).1
  simpa using h

end RagDocs.UseChat

namespace RagDocs.InFlight

theorem run_inv :
    ∀ (ops : List Op) (s : OrchState),
    activeOf s.log = s.inFlight.toList →
    (∀ r, Ev.queued r ∉ s.log ∧ Ev.rejected r ∉ s.log) →
    activeOf (ops.foldl step s).log = (ops.foldl step s).inFlight.toList
    ∧ ∀ r, Ev.queued r ∉ (ops.foldl step s).log
        ∧ Ev.rejected r ∉ (ops.foldl step s).log := by
  intro ops
  induction ops with
  | nil => intro s h1 h2; exact ⟨h1, h2⟩
  | cons op rest ih =>
    intro s h1 h2
    simp only [List.foldl_cons]
    apply ih
    · cases op with
      | start r =>
        simp only [step, startTurn]
        cases hf : s.inFlight with
        | some r0 =>
          have ha : activeOf s.log = [r0] := by rw [h1, hf]; rfl
          simp [activeOf, List.foldl_append, ha]
          have : activeOf s.log ++ [r0] = [r0] ++ [r0] := by rw [ha]
          simp [activeOf] at ha ⊢
          rw [ha]
          simp
        | none =>
          have ha : activeOf s.log = [] := by rw [h1, hf]; rfl
          simp [activeOf, List.foldl_append] at ha ⊢
          rw [ha]
      | finish r =>
        simp only [step, finishTurn]
        by_cases hf : s.inFlight = some r
        · have ha : activeOf s.log = [r] := by rw [h1, hf]; rfl
          simp only [hf, if_pos]
          simp [activeOf, List.foldl_append] at ha ⊢
          rw [ha]
          simp
        · simp only [hf, if_neg, h1]
          exact h1
    · intro r
      cases op with
      | start r' =>
        simp only [step, startTurn]
        cases s.inFlight with
        | some r0 => simp [h2 r]
        | none => simp [h2 r]
      | finish r' =>
        simp only [step, finishTurn]
        by_cases hf : s.inFlight = some r'
        · simp [hf, h2 r]
        · simp [hf, h2 r]

/-- C9 counterexample: with request 1 in flight, a second `append` call
is neither queued behind it nor rejected with a busy condition — the
hook aborts request 1 and starts request 2 immediately. -/
theorem c9_busy_counterexample :
    (run [.start 1]).inFlight = some 1
    ∧ Ev.queued 2 ∉ (run [.start 1, .start 2]).log
    ∧ Ev.rejected 2 ∉ (run [.start 1, .start 2]).log
    ∧ (run [.start 1, .start 2]).log
      = [.started 1, .aborted 1, .started 2] := by
  refine ⟨?_, ?_, ?_, ?_⟩ <;> decide

/-- C9 amended: at most one synthesis request is in flight at any time
and two turns never run concurrently, but a call arriving while one is
in flight is neither queued nor rejected: the in-flight request is
aborted (its turn is cancelled) and the new call proceeds immediately.
In every reachable state the started-but-not-terminated requests are
exactly the pending one (hence at most one), and no queued or rejected
event ever occurs. -/
theorem c9_at_most_one_in_flight :
    ∀ ops : List Op,
    (activeOf (run ops).log = (run ops).inFlight.toList
      ∧ (activeOf (run ops).log).length ≤ 1
      ∧ ∀ r, Ev.queued r ∉ (run ops).log ∧ Ev.rejected r ∉ (run ops).log)
    ∧ ∀ (s : OrchState) (r0 r : Nat), s.inFlight = some r0 →
        startTurn s r = ⟨some r, s.log ++ [.aborted r0, .started r]⟩ := by
  intro ops
  have h := run_inv ops ⟨none, []⟩ rfl (by intro r; exact ⟨by simp, by simp⟩)
  have h1 : activeOf (run ops).log = (run ops).inFlight.toList := h.1
  refine ⟨⟨h1, ?_, h.2⟩, ?_⟩
  · rw [h1]
    cases (run ops).inFlight <;> simp
  · intro s r0 r hf
    simp [startTurn, hf]

/-- C9 witness: the amended theorem applied at a concrete state with a
request in flight. -/
theorem c9_at_most_one_in_flight_witness :
    startTurn ⟨some 5, [Ev.started 5]⟩ 6
      = ⟨some 6, [Ev.started 5, Ev.aborted 5, Ev.started 6]⟩ :=
  (c9_at_most_one_in_flight []).2 ⟨some 5, [Ev.started 5]⟩ 5 6 rfl

end RagDocs.InFlight

namespace RagDocs.Backend

/-- C8: the retriever applies the technology/category filters as a
pre-filter, so no returned chunk violates the filter for any query,
filter and top_k; the result has min(k, candidates) elements and every
returned hit ranks at least as high (score descending, deterministic
tie-break) as every filtered candidate that was not returned — i.e. the
k most relevant chunks among those satisfying the filter.
Spec-modelled (the retriever is backend code not in the provided
sources). -/
theorem c8_prefilter_top_k :
    ∀ (corpus : List (Chunk × List Int)) (embedQ : String → List Int)
      (q : String) (f : Filters) (k : Nat),
    (∀ h ∈ search corpus embedQ q f k, matchesFilter f h.chunk = true)
    ∧ (search corpus embedQ q f k).length
      = min k (searchCandidates corpus embedQ q f).length
    ∧ (∀ h1 ∈ search corpus embedQ q f k,
        ∀ h2 ∈ searchCandidates corpus embedQ q f,
        h2 ∉ search corpus embedQ q f k → rankLE h1 h2) := by
  intro corpus embedQ q f k
  have hperm := List.perm_insertionSort rankLE
    (searchCandidates corpus embedQ q f)
  have hsort := List.sorted_insertionSort rankLE
    (searchCandidates corpus embedQ q f)
  refine ⟨?_, ?_, ?_⟩
  · intro h hh
    have h1 : h ∈ (searchCandidates corpus embedQ q f).insertionSort rankLE :=
      List.mem_of_mem_take hh
    have h2 : h ∈ searchCandidates corpus embedQ q f := hperm.mem_iff.mp h1
    unfold searchCandidates at h2
    obtain ⟨cv, hcv, hmk⟩ := List.mem_map.mp h2
    have := (List.mem_filter.mp hcv).2
    rw [← hmk]
    exact this
  · rw [search, List.length_take, hperm.length_eq]
  · intro h1 hh1 h2 hh2 hh2n
    set l := (searchCandidates corpus embedQ q f).insertionSort rankLE with hl
    have hmem2 : h2 ∈ l := hperm.mem_iff.mpr hh2
    have hsplit : l = l.take k ++ l.drop k := (List.take_append_drop k l).symm
    have hpw : l.Pairwise rankLE := hsort
    rw [hsplit] at hpw
    have hrel := (List.pairwise_append.mp hpw).2.2
    have hd : h2 ∈ l.drop k := by
      rcases List.mem_append.mp (hsplit ▸ hmem2) with hx | hx
      · exact absurd hx hh2n
      · exact hx
    exact hrel h1 hh1 h2 hd

/-- C8 witness: a concrete search with filter technology "qdrant" over
a corpus where a milvus chunk scores higher; the returned hit still
satisfies the filter. -/
theorem c8_prefilter_top_k_witness :
    matchesFilter ⟨["qdrant"], []⟩
      (⟨⟨("a.md", 0), "scaling", "# S", "qdrant", "guides", 0⟩, 1⟩ : Hit).chunk
      = true :=
  (c8_prefilter_top_k
    [(⟨("a.md", 0), "scaling", "# S", "qdrant", "guides", 0⟩, [1]),
     (⟨("b.md", 0), "intro", "# I", "milvus", "guides", 0⟩, [10])]
    (fun _ => [1]) "scaling" ⟨["qdrant"], []⟩ 1).1
    ⟨⟨("a.md", 0), "scaling", "# S", "qdrant", "guides", 0⟩, 1⟩
    (by decide)

end RagDocs.Backend
namespace RagDocs.Backend

theorem planChunk_none {embedF : String → Option (List Int)}
    {idx : List (ChunkId × EmbRec)} {c : Chunk} {rb : EmbRec × Bool}
    (h : planChunk embedF idx c = some rb) :
    (rb.2 = true →
      ∀ r, fLookup c.id idx = some r → r.hash ≠ contentHash c.text)
    ∧ (∀ r, fLookup c.id idx = some r → r.hash = contentHash c.text →
        rb = (r, false)) := by
  unfold planChunk at h
  split at h
  case h_1 r heq =>
    split at h
    case isTrue hh =>
      simp only [Option.some.injEq] at h
      refine ⟨?_, ?_⟩
      · intro hflag
        rw [← h] at hflag
        simp at hflag
      · intro r' hr' _
        rw [heq] at hr'
        simp only [Option.some.injEq] at hr'
        rw [← h, hr']
    case isFalse hh =>
      cases hemb : embedF c.text with
      | none => rw [hemb] at h; simp at h
      | some v =>
        rw [hemb] at h
        simp only [Option.map_some', Option.some.injEq] at h
        refine ⟨?_, ?_⟩
        · intro _ r' hr'
          rw [heq] at hr'
          simp only [Option.some.injEq] at hr'
          rw [← hr']
          exact hh
        · intro r' hr' hh'
          rw [heq] at hr'
          simp only [Option.some.injEq] at hr'
          exact absurd (hr' ▸ hh') hh
  case h_2 heq =>
    refine ⟨?_, ?_⟩
    · intro _ r' hr'
      rw [heq] at hr'
      simp at hr'
    · intro r' hr'
      rw [heq] at hr'
      simp at hr'

end RagDocs.Backend
namespace RagDocs.Backend

theorem buildRecs_spec {embedF : String → Option (List Int)}
    {idx : List (ChunkId × EmbRec)} :
    ∀ {cs : List Chunk} {recs : List (ChunkId × EmbRec × Bool)},
    buildRecs embedF idx cs = some recs →
    List.Forall₂ (fun (c : Chunk) (rb : ChunkId × EmbRec × Bool) =>
      rb.1 = c.id
      ∧ (rb.2.2 = true →
          ∀ r, fLookup c.id idx = some r → r.hash ≠ contentHash c.text)
      ∧ (∀ r, fLookup c.id idx = some r → r.hash = contentHash c.text →
          rb = (c.id, r, false))) cs recs := by
  intro cs
  induction cs with
  | nil =>
    intro recs h
    have h0 : ([] : List (ChunkId × EmbRec × Bool)) = recs := by
      simpa [buildRecs] using h
    rw [← h0]
    exact List.Forall₂.nil
  | cons c t ih =>
    intro recs h
    unfold buildRecs at h
    cases hp : planChunk embedF idx c with
    | none => rw [hp] at h; simp at h
    | some rb =>
      rw [hp] at h
      cases hrest : buildRecs embedF idx t with
      | none => rw [hrest] at h; simp at h
      | some rest =>
        rw [hrest] at h
        simp only [Option.some.injEq] at h
        rw [← h]
        have hps := planChunk_none hp
        refine List.Forall₂.cons ⟨rfl, ?_, ?_⟩ (ih hrest)
        · exact hps.1
        · intro r hr hh
          have := hps.2 r hr hh
          rw [this]

theorem buildRecs_keys {embedF : String → Option (List Int)}
    {idx : List (ChunkId × EmbRec)} :
    ∀ {cs : List Chunk} {recs : List (ChunkId × EmbRec × Bool)},
    buildRecs embedF idx cs = some recs →
    recs.map (fun rb => rb.1) = cs.map (fun c => c.id) := by
  intro cs
  induction cs with
  | nil =>
    intro recs h
    have h0 : ([] : List (ChunkId × EmbRec × Bool)) = recs := by
      simpa [buildRecs] using h
    rw [← h0]
    rfl
  | cons c t ih =>
    intro recs h
    unfold buildRecs at h
    cases hp : planChunk embedF idx c with
    | none => rw [hp] at h; simp at h
    | some rb =>
      rw [hp] at h
      cases hrest : buildRecs embedF idx t with
      | none => rw [hrest] at h; simp at h
      | some rest =>
        rw [hrest] at h
        simp only [Option.some.injEq] at h
        rw [← h]
        simp [ih hrest]

theorem buildRecs_total {embedF : String → Option (List Int)}
    {idx : List (ChunkId × EmbRec)}
    (hok : ∀ s, (embedF s).isSome = true) :
    ∀ cs : List Chunk, (buildRecs embedF idx cs).isSome = true := by
  intro cs
  induction cs with
  | nil => simp [buildRecs]
  | cons c t ih =>
    unfold buildRecs
    cases hrest : buildRecs embedF idx t with
    | none => rw [hrest] at ih; simp at ih
    | some rest =>
      have hp : (planChunk embedF idx c).isSome = true := by
        unfold planChunk
        cases hlk : fLookup c.id idx with
        | some r =>
          by_cases hh : r.hash = contentHash c.text
          · simp [hh]
          · cases hemb : embedF c.text with
            | none =>
              have := hok c.text
              rw [hemb] at this
              simp at this
            | some v => simp [hh, hemb]
        | none =>
          cases hemb : embedF c.text with
          | none =>
            have := hok c.text
            rw [hemb] at this
            simp at this
          | some v => simp [hemb]
      cases hpc : planChunk embedF idx c with
      | none => rw [hpc] at hp; simp at hp
      | some rb => simp [hpc, hrest]

theorem processDoc_ids (d : Doc) :
    (processDoc d).map (fun c => c.id)
      = (List.range (splitSections (splitLines d.content)).length).map
          (fun i => ((d.path, i) : ChunkId)) := by
  unfold processDoc
  rw [List.map_map]
  have h1 : ((fun c : Chunk => c.id) ∘
      (fun p : Nat × (String × String) =>
        (⟨(d.path, p.1), p.2.2, p.2.1, d.technology, d.category, p.1⟩ : Chunk)))
      = (fun i => ((d.path, i) : ChunkId)) ∘ Prod.fst := rfl
  rw [h1, ← List.map_map, List.enum_map_fst]

theorem processDoc_ids_nodup (d : Doc) :
    ((processDoc d).map (fun c => c.id)).Nodup := by
  rw [processDoc_ids]
  exact (List.nodup_range _).map (fun a b h => by
    simpa using congrArg Prod.snd h)

theorem processDoc_ids_path (d : Doc) :
    ∀ c ∈ processDoc d, c.id.1 = d.path := by
  intro c hc
  unfold processDoc at hc
  obtain ⟨p, _, hp⟩ := List.mem_map.mp hc
  rw [← hp]

theorem forall2_mem_left {α β : Type} {P : α → β → Prop} :
    ∀ {l1 : List α} {l2 : List β}, List.Forall₂ P l1 l2 →
    ∀ a ∈ l1, ∃ b ∈ l2, P a b := by
  intro l1 l2 h
  induction h with
  | nil => intro a ha; simp at ha
  | cons hab _ ih =>
    intro a ha
    rcases List.mem_cons.mp ha with h1 | h1
    · exact ⟨_, List.mem_cons_self _ _, h1 ▸ hab⟩
    · obtain ⟨b, hb, hpb⟩ := ih a h1
      exact ⟨b, List.mem_cons_of_mem _ hb, hpb⟩

theorem forall2_mem_right {α β : Type} {P : α → β → Prop} :
    ∀ {l1 : List α} {l2 : List β}, List.Forall₂ P l1 l2 →
    ∀ b ∈ l2, ∃ a ∈ l1, P a b := by
  intro l1 l2 h
  induction h with
  | nil => intro b hb; simp at hb
  | cons hab _ ih =>
    intro b hb
    rcases List.mem_cons.mp hb with h1 | h1
    · exact ⟨_, List.mem_cons_self _ _, h1 ▸ hab⟩
    · obtain ⟨a, ha, hpa⟩ := ih b h1
      exact ⟨a, List.mem_cons_of_mem _ ha, hpa⟩

end RagDocs.Backend
namespace RagDocs.Backend

theorem fLookup_erasePath_ne {p : String} {cid : ChunkId}
    (idx : List (ChunkId × EmbRec)) (h : cid.1 ≠ p) :
    fLookup cid (erasePath p idx) = fLookup cid idx := by
  induction idx with
  | nil => rfl
  | cons e t ih =>
    obtain ⟨a, b⟩ := e
    by_cases ha : a.1 = p
    · have h1 : erasePath p ((a, b) :: t) = erasePath p t := by
        simp [erasePath, ha]
      have hk : a ≠ cid := by
        intro hx
        rw [hx] at ha
        exact h ha
      rw [h1, fLookup_cons_ne _ _ hk, ih]
    · have h1 : erasePath p ((a, b) :: t) = (a, b) :: erasePath p t := by
        simp [erasePath, ha]
      by_cases hk : a = cid
      · subst hk
        rw [h1, fLookup_cons_self, fLookup_cons_self]
      · rw [h1, fLookup_cons_ne _ _ hk, fLookup_cons_ne _ _ hk, ih]

theorem fLookup_append_left_some {κ ν : Type} [DecidableEq κ] {k : κ}
    {v : ν} {l1 : List (κ × ν)} (l2 : List (κ × ν))
    (h : fLookup k l1 = some v) : fLookup k (l1 ++ l2) = some v := by
  induction l1 with
  | nil => simp [fLookup] at h
  | cons e t ih =>
    obtain ⟨a, b⟩ := e
    by_cases ha : a = k
    · subst ha
      rw [fLookup_cons_self] at h
      simp only [List.cons_append]
      rw [fLookup_cons_self]
      exact h
    · rw [fLookup_cons_ne _ _ ha] at h
      simp only [List.cons_append]
      rw [fLookup_cons_ne _ _ ha]
      exact ih h

/-- Inversion of a successful per-document apply. -/
theorem applyDoc_some {embedF : String → Option (List Int)} {st : IState}
    {d : Doc} {st' : IState} {emb : List ChunkId}
    (h : applyDoc embedF st d = some (st', emb)) :
    ∃ recs, buildRecs embedF st.index (processDoc d) = some recs
      ∧ st' = ⟨(d.path, ⟨contentHash d.content,
            recs.map (fun rb => rb.1)⟩) :: eraseKey d.path st.manifest,
          recs.map (fun rb => (rb.1, rb.2.1)) ++ erasePath d.path st.index⟩
      ∧ emb = (recs.filter (fun rb => rb.2.2)).map (fun rb => rb.1) := by
  unfold applyDoc at h
  cases hb : buildRecs embedF st.index (processDoc d) with
  | none => rw [hb] at h; simp at h
  | some recs =>
    rw [hb] at h
    simp only [Option.some.injEq, Prod.mk.injEq] at h
    exact ⟨recs, rfl, h.1.symm, h.2.symm⟩

theorem recs_keys_path {embedF : String → Option (List Int)} {st : IState}
    {d : Doc} {recs : List (ChunkId × EmbRec × Bool)}
    (hb : buildRecs embedF st.index (processDoc d) = some recs) :
    ∀ rb ∈ recs, rb.1.1 = d.path := by
  intro rb hrb
  have hk := buildRecs_keys hb
  have : rb.1 ∈ recs.map (fun rb => rb.1) := List.mem_map.mpr ⟨rb, hrb, rfl⟩
  rw [hk] at this
  obtain ⟨c, hc, hcid⟩ := List.mem_map.mp this
  rw [← hcid]
  exact processDoc_ids_path d c hc

theorem recs_keys_nodup {embedF : String → Option (List Int)} {st : IState}
    {d : Doc} {recs : List (ChunkId × EmbRec × Bool)}
    (hb : buildRecs embedF st.index (processDoc d) = some recs) :
    (recs.map (fun rb => rb.1)).Nodup := by
  rw [buildRecs_keys hb]
  exact processDoc_ids_nodup d

end RagDocs.Backend
namespace RagDocs.Backend

theorem applyDoc_other_paths {embedF : String → Option (List Int)}
    {st : IState} {d : Doc} {st' : IState} {emb : List ChunkId}
    (h : applyDoc embedF st d = some (st', emb)) :
    ∀ cid : ChunkId, cid.1 ≠ d.path →
    fLookup cid st'.index = fLookup cid st.index := by
  intro cid hcid
  obtain ⟨recs, hb, hst, _⟩ := applyDoc_some h
  rw [hst]
  have h1 : ∀ e ∈ recs.map (fun rb => (rb.1, rb.2.1)), e.1 ≠ cid := by
    intro e he hx
    obtain ⟨rb, hrb, hrbe⟩ := List.mem_map.mp he
    have := recs_keys_path hb rb hrb
    rw [← hrbe] at hx
    rw [hx] at this
    exact hcid this
  rw [show (⟨(d.path, ⟨contentHash d.content,
        recs.map (fun rb => rb.1)⟩) :: eraseKey d.path st.manifest,
      recs.map (fun rb => (rb.1, rb.2.1)) ++ erasePath d.path st.index⟩ :
      IState).index
    = recs.map (fun rb => (rb.1, rb.2.1)) ++ erasePath d.path st.index
    from rfl]
  rw [fLookup_append_left_none _ h1, fLookup_erasePath_ne _ hcid]

theorem applyDoc_keeps_matching {embedF : String → Option (List Int)}
    {st : IState} {d : Doc} {st' : IState} {emb : List ChunkId}
    (h : applyDoc embedF st d = some (st', emb)) :
    ∀ c ∈ processDoc d, ∀ r, fLookup c.id st.index = some r →
    r.hash = contentHash c.text → fLookup c.id st'.index = some r := by
  intro c hc r hr hh
  obtain ⟨recs, hb, hst, _⟩ := applyDoc_some h
  obtain ⟨rb, hrb, hP⟩ := forall2_mem_left (buildRecs_spec hb) c hc
  have hrbe : rb = (c.id, r, false) := hP.2.2 r hr hh
  have hmem : ((c.id, r) : ChunkId × EmbRec)
      ∈ recs.map (fun rb => (rb.1, rb.2.1)) := by
    refine List.mem_map.mpr ⟨rb, hrb, ?_⟩
    rw [hrbe]
  have hkeys : ((recs.map (fun rb => (rb.1, rb.2.1))).map
      (fun e => e.1)).Nodup := by
    rw [List.map_map]
    exact recs_keys_nodup hb
  rw [hst]
  exact fLookup_append_left_some _ (fLookup_mem_of_nodup hkeys hmem)

theorem applyDoc_embeds_only_stale {embedF : String → Option (List Int)}
    {st : IState} {d : Doc} {st' : IState} {emb : List ChunkId}
    (h : applyDoc embedF st d = some (st', emb)) :
    ∀ cid ∈ emb, ∀ c ∈ processDoc d, c.id = cid →
    ∀ r, fLookup cid st.index = some r → r.hash ≠ contentHash c.text := by
  intro cid hcid c hc hcideq r hr
  obtain ⟨recs, hb, _, hemb⟩ := applyDoc_some h
  rw [hemb] at hcid
  obtain ⟨rb, hrbf, hrbe⟩ := List.mem_map.mp hcid
  have hrb : rb ∈ recs := List.mem_of_mem_filter hrbf
  have hflag : rb.2.2 = true := by
    have := List.mem_filter.mp hrbf
    simpa using this.2
  obtain ⟨c0, hc0, hP⟩ := forall2_mem_right (buildRecs_spec hb) rb hrb
  have hceq : c = c0 := by
    apply List.inj_on_of_nodup_map (processDoc_ids_nodup d) hc hc0
    rw [hcideq, ← hrbe, hP.1]
  rw [hceq]
  apply hP.2.1 hflag
  rw [← hP.1, hrbe]
  exact hr

theorem removeDocs_other_paths :
    ∀ (ds : List String) (st : IState) (cid : ChunkId), cid.1 ∉ ds →
    fLookup cid (ds.foldl removeDoc st).index = fLookup cid st.index := by
  intro ds
  induction ds with
  | nil => intro st cid _; rfl
  | cons p t ih =>
    intro st cid hcid
    simp only [List.foldl_cons]
    rw [ih _ _ (fun hx => hcid (List.mem_cons_of_mem _ hx))]
    exact fLookup_erasePath_ne _ (fun hx => hcid (hx ▸ List.mem_cons_self _ _))

theorem applyFold_other_paths {embedF : String → Option (List Int)} :
    ∀ (docs : List Doc) (acc : IState × List ChunkId) (cid : ChunkId),
    (∀ d ∈ docs, d.path ≠ cid.1) →
    fLookup cid ((docs.foldl (applyStep embedF) acc).1).index
      = fLookup cid acc.1.index := by
  intro docs
  induction docs with
  | nil => intro acc cid _; rfl
  | cons d t ih =>
    intro acc cid hd
    simp only [List.foldl_cons]
    rw [ih _ _ (fun d' hd' => hd d' (List.mem_cons_of_mem _ hd'))]
    unfold applyStep
    cases ha : applyDoc embedF acc.1 d with
    | none => rfl
    | some p =>
      obtain ⟨st', emb⟩ := p
      exact applyDoc_other_paths ha cid
        (fun hx => hd d (List.mem_cons_self _ _) hx.symm)

/-- C6: re-indexing is incremental.  For every document a successful
per-document apply embeds only chunk ids that are not already present
with a matching content hash; every chunk of the document whose section
content is unchanged (its existing record's hash matches) keeps an
identical EmbeddingRecord; and the records of every chunk of other
documents are untouched — both by the per-document apply and by a whole
apply pass whose partition does not touch those documents.
Spec-modelled (the indexer is backend code not in the provided
sources). -/
theorem c6_incremental_reindex :
    ∀ (embedF : String → Option (List Int)) (st : IState) (d : Doc)
      (st' : IState) (emb : List ChunkId),
    applyDoc embedF st d = some (st', emb) →
    ((∀ cid ∈ emb, ∀ c ∈ processDoc d, c.id = cid →
        ∀ r, fLookup cid st.index = some r → r.hash ≠ contentHash c.text)
    ∧ (∀ c ∈ processDoc d, ∀ r, fLookup c.id st.index = some r →
        r.hash = contentHash c.text → fLookup c.id st'.index = some r)
    ∧ (∀ cid : ChunkId, cid.1 ≠ d.path →
        fLookup cid st'.index = fLookup cid st.index))
    ∧ ∀ (part : Partition) (cid : ChunkId), cid.1 ∉ part.deleted →
        (∀ d' ∈ part.added ++ part.modified, d'.path ≠ cid.1) →
        fLookup cid (applyP embedF st part).1.index
          = fLookup cid st.index := by
  intro embedF st d st' emb h
  refine ⟨⟨applyDoc_embeds_only_stale h, applyDoc_keeps_matching h,
    applyDoc_other_paths h⟩, ?_⟩
  intro part cid hdel hdocs
  unfold applyP
  rw [applyFold_other_paths _ _ _ hdocs]
  exact removeDocs_other_paths _ _ _ hdel

end RagDocs.Backend
namespace RagDocs.Backend

theorem mem_manifestIds {st : IState} {cid : ChunkId} :
    cid ∈ manifestIds st
      ↔ ∃ p e, (p, e) ∈ st.manifest ∧ cid ∈ e.chunkIds := by
  unfold manifestIds
  rw [List.mem_flatMap]
  constructor
  · rintro ⟨⟨p, e⟩, hpe, hcid⟩
    exact ⟨p, e, hpe, hcid⟩
  · rintro ⟨p, e, hpe, hcid⟩
    exact ⟨(p, e), hpe, hcid⟩

theorem mem_indexKeys {st : IState} {cid : ChunkId} :
    cid ∈ indexKeys st ↔ ∃ r, (cid, r) ∈ st.index := by
  unfold indexKeys
  rw [List.mem_map]
  constructor
  · rintro ⟨⟨k, r⟩, hkr, hk⟩
    simp only at hk
    subst hk
    exact ⟨r, hkr⟩
  · rintro ⟨r, hr⟩
    exact ⟨(cid, r), hr, rfl⟩

theorem mem_eraseKey {κ ν : Type} [DecidableEq κ] {k p : κ} {v : ν}
    {l : List (κ × ν)} :
    (k, v) ∈ eraseKey p l ↔ (k, v) ∈ l ∧ k ≠ p := by
  unfold eraseKey
  rw [List.mem_filter]
  simp

theorem mem_erasePath {p : String} {cid : ChunkId} {r : EmbRec}
    {idx : List (ChunkId × EmbRec)} :
    (cid, r) ∈ erasePath p idx ↔ (cid, r) ∈ idx ∧ cid.1 ≠ p := by
  unfold erasePath
  rw [List.mem_filter]
  simp

theorem countKey_eq_count {cid : ChunkId} {idx : List (ChunkId × EmbRec)} :
    countKey cid idx = (idx.map (fun e => e.1)).count cid := by
  induction idx with
  | nil => rfl
  | cons e t ih =>
    obtain ⟨a, b⟩ := e
    simp only [countKey, List.map_cons, List.count_cons,
      List.filter_cons] at ih ⊢
    by_cases ha : a = cid
    · simp [ha, ih]
    · simp [ha, ih]

theorem eraseKey_keys_sublist {κ ν : Type} [DecidableEq κ] (p : κ)
    (l : List (κ × ν)) :
    List.Sublist ((eraseKey p l).map (fun e => e.1))
      (l.map (fun e => e.1)) :=
  (List.filter_sublist l).map _

theorem erasePath_keys_sublist (p : String) (idx : List (ChunkId × EmbRec)) :
    List.Sublist ((erasePath p idx).map (fun e => e.1))
      (idx.map (fun e => e.1)) :=
  (List.filter_sublist idx).map _

theorem wf_emptyState : WFState emptyState := by
  refine ⟨List.nodup_nil, List.nodup_nil, ?_, ?_⟩
  · intro p e hpe
    simp [emptyState] at hpe
  · intro cid
    simp [manifestIds, indexKeys, emptyState]

theorem wf_removeDoc {st : IState} (p : String) (h : WFState st) :
    WFState (removeDoc st p) := by
  obtain ⟨hmn, hin, hown, hiff⟩ := h
  refine ⟨?_, ?_, ?_, ?_⟩
  · exact (eraseKey_keys_sublist p st.manifest).nodup hmn
  · exact (erasePath_keys_sublist p st.index).nodup hin
  · intro q e hqe
    exact hown q e (mem_eraseKey.mp hqe).1
  · intro cid
    constructor
    · intro hm
      obtain ⟨q, e, hqe, hcid⟩ := mem_manifestIds.mp hm
      obtain ⟨hqe0, hqp⟩ := mem_eraseKey.mp hqe
      have h1 : cid ∈ manifestIds st := mem_manifestIds.mpr ⟨q, e, hqe0, hcid⟩
      obtain ⟨r, hr⟩ := mem_indexKeys.mp ((hiff cid).mp h1)
      have hcp : cid.1 = q := (hown q e hqe0).2 cid hcid
      refine mem_indexKeys.mpr ⟨r, mem_erasePath.mpr ⟨hr, ?_⟩⟩
      rw [hcp]
      exact hqp
    · intro hk
      obtain ⟨r, hr⟩ := mem_indexKeys.mp hk
      obtain ⟨hr0, hcp⟩ := mem_erasePath.mp hr
      have h1 : cid ∈ indexKeys st := mem_indexKeys.mpr ⟨r, hr0⟩
      obtain ⟨q, e, hqe, hcid⟩ := mem_manifestIds.mp ((hiff cid).mpr h1)
      have hq : cid.1 = q := (hown q e hqe).2 cid hcid
      refine mem_manifestIds.mpr ⟨q, e, mem_eraseKey.mpr ⟨hqe, ?_⟩, hcid⟩
      rw [← hq]
      exact hcp

end RagDocs.Backend
namespace RagDocs.Backend

theorem newIds_path {embedF : String → Option (List Int)} {st : IState}
    {d : Doc} {recs : List (ChunkId × EmbRec × Bool)}
    (hb : buildRecs embedF st.index (processDoc d) = some recs) :
    ∀ cid ∈ recs.map (fun rb => rb.1), cid.1 = d.path := by
  intro cid hcid
  obtain ⟨rb, hrb, hrbe⟩ := List.mem_map.mp hcid
  rw [← hrbe]
  exact recs_keys_path hb rb hrb

theorem wf_applyDoc {embedF : String → Option (List Int)} {st : IState}
    {d : Doc} {st' : IState} {emb : List ChunkId} (hwf : WFState st)
    (h : applyDoc embedF st d = some (st', emb)) : WFState st' := by
  obtain ⟨hmn, hin, hown, hiff⟩ := hwf
  obtain ⟨recs, hb, hst, _⟩ := applyDoc_some h
  have hkn := recs_keys_nodup hb
  have hkp := newIds_path hb
  have hnewkeys : (recs.map (fun rb => (rb.1, rb.2.1))).map (fun e => e.1)
      = recs.map (fun rb => rb.1) := by
    rw [List.map_map]
    rfl
  subst hst
  refine ⟨?_, ?_, ?_, ?_⟩
  · simp only [List.map_cons]
    rw [List.nodup_cons]
    refine ⟨?_, (eraseKey_keys_sublist d.path st.manifest).nodup hmn⟩
    intro hmem
    obtain ⟨⟨q, e⟩, hqe, hq⟩ := List.mem_map.mp hmem
    simp only at hq
    exact (mem_eraseKey.mp hqe).2 hq
  · show ((recs.map (fun rb => (rb.1, rb.2.1))
        ++ erasePath d.path st.index).map (fun e => e.1)).Nodup
    rw [List.map_append, hnewkeys]
    refine List.Nodup.append hkn
      ((erasePath_keys_sublist d.path st.index).nodup hin) ?_
    intro a ha hb2
    obtain ⟨⟨k, r⟩, hkr, hk⟩ := List.mem_map.mp hb2
    simp only at hk
    rw [hk] at hkr
    exact (mem_erasePath.mp hkr).2 (hkp a ha)
  · intro q e hqe
    rcases List.mem_cons.mp hqe with hq | hq
    · rw [Prod.mk.injEq] at hq
      obtain ⟨hq1, hq2⟩ := hq
      subst hq1
      rw [hq2]
      exact ⟨hkn, hkp⟩
    · exact hown q e (mem_eraseKey.mp hq).1
  · intro cid
    have hmids : cid ∈ manifestIds
        (⟨(d.path, ⟨contentHash d.content,
            recs.map (fun rb => rb.1)⟩) :: eraseKey d.path st.manifest,
          recs.map (fun rb => (rb.1, rb.2.1))
            ++ erasePath d.path st.index⟩ : IState)
        ↔ cid ∈ recs.map (fun rb => rb.1)
          ∨ ∃ q e, (q, e) ∈ eraseKey d.path st.manifest
              ∧ cid ∈ e.chunkIds := by
      rw [mem_manifestIds]
      constructor
      · rintro ⟨q, e, hqe, hcid⟩
        rcases List.mem_cons.mp hqe with hq | hq
        · rw [Prod.mk.injEq] at hq
          left
          rw [hq.2] at hcid
          exact hcid
        · right
          exact ⟨q, e, hq, hcid⟩
      · rintro (hcid | ⟨q, e, hqe, hcid⟩)
        · exact ⟨d.path, _, List.mem_cons_self _ _, hcid⟩
        · exact ⟨q, e, List.mem_cons_of_mem _ hqe, hcid⟩
    have hikeys : cid ∈ indexKeys
        (⟨(d.path, ⟨contentHash d.content,
            recs.map (fun rb => rb.1)⟩) :: eraseKey d.path st.manifest,
          recs.map (fun rb => (rb.1, rb.2.1))
            ++ erasePath d.path st.index⟩ : IState)
        ↔ cid ∈ recs.map (fun rb => rb.1)
          ∨ ∃ r, (cid, r) ∈ erasePath d.path st.index := by
      show cid ∈ ((recs.map (fun rb => (rb.1, rb.2.1))
          ++ erasePath d.path st.index).map (fun e => e.1)) ↔ _
      rw [List.map_append, hnewkeys, List.mem_append]
      constructor
      · rintro (hx | hx)
        · exact Or.inl hx
        · obtain ⟨⟨k, r⟩, hkr, hk⟩ := List.mem_map.mp hx
          simp only at hk
          subst hk
          exact Or.inr ⟨r, hkr⟩
      · rintro (hx | ⟨r, hr⟩)
        · exact Or.inl hx
        · exact Or.inr (List.mem_map.mpr ⟨(cid, r), hr, rfl⟩)
    rw [hmids, hikeys]
    constructor
    · rintro (hx | ⟨q, e, hqe, hcid⟩)
      · exact Or.inl hx
      · obtain ⟨hqe0, hqp⟩ := mem_eraseKey.mp hqe
        have hcp : cid.1 = q := (hown q e hqe0).2 cid hcid
        have h1 : cid ∈ manifestIds st :=
          mem_manifestIds.mpr ⟨q, e, hqe0, hcid⟩
        obtain ⟨r, hr⟩ := mem_indexKeys.mp ((hiff cid).mp h1)
        refine Or.inr ⟨r, mem_erasePath.mpr ⟨hr, ?_⟩⟩
        rw [hcp]
        exact hqp
    · rintro (hx | ⟨r, hr⟩)
      · exact Or.inl hx
      · obtain ⟨hr0, hcp⟩ := mem_erasePath.mp hr
        have h1 : cid ∈ indexKeys st := mem_indexKeys.mpr ⟨r, hr0⟩
        obtain ⟨q, e, hqe, hcid⟩ := mem_manifestIds.mp ((hiff cid).mpr h1)
        have hq : cid.1 = q := (hown q e hqe).2 cid hcid
        refine Or.inr ⟨q, e, mem_eraseKey.mpr ⟨hqe, ?_⟩, hcid⟩
        rw [← hq]
        exact hcp

theorem wf_applyStep {embedF : String → Option (List Int)}
    {acc : IState × List ChunkId} (d : Doc) (hwf : WFState acc.1) :
    WFState (applyStep embedF acc d).1 := by
  unfold applyStep
  cases ha : applyDoc embedF acc.1 d with
  | none => exact hwf
  | some p =>
    obtain ⟨st', emb⟩ := p
    exact wf_applyDoc hwf ha

theorem wf_applyP {embedF : String → Option (List Int)} {st : IState}
    (part : Partition) (hwf : WFState st) :
    WFState (applyP embedF st part).1 := by
  unfold applyP
  have h0 : WFState (part.deleted.foldl removeDoc st) := by
    generalize st = s0 at hwf ⊢
    induction part.deleted generalizing s0 with
    | nil => exact hwf
    | cons p t ih =>
      simp only [List.foldl_cons]
      exact ih _ (wf_removeDoc p hwf)
  generalize hacc : ((part.deleted.foldl removeDoc st, [])
    : IState × List ChunkId) = acc
  have hwf0 : WFState acc.1 := by rw [← hacc]; exact h0
  clear hacc h0
  induction part.added ++ part.modified generalizing acc with
  | nil => exact hwf0
  | cons d t ih =>
    simp only [List.foldl_cons]
    exact ih _ (wf_applyStep d hwf0)

theorem reach_wf {embedF : String → Option (List Int)} {st : IState}
    (h : Reach embedF st) : WFState st := by
  induction h with
  | init => exact wf_emptyState
  | step st part _ ih => exact wf_applyP part ih

end RagDocs.Backend
namespace RagDocs.Backend

theorem applyDoc_atomic (embedF : String → Option (List Int)) (st : IState)
    (d : Doc) :
    docView (applyDocOr embedF st d) d.path = docView st d.path
    ∨ ∃ e, fLookup d.path (applyDocOr embedF st d).manifest = some e
        ∧ e.docHash = contentHash d.content
        ∧ ((applyDocOr embedF st d).index.filter
            (fun x => x.1.1 = d.path)).map (fun x => x.1) = e.chunkIds := by
  unfold applyDocOr
  cases h : applyDoc embedF st d with
  | none => exact Or.inl rfl
  | some p =>
    obtain ⟨st', emb⟩ := p
    obtain ⟨recs, hb, hst, _⟩ := applyDoc_some h
    right
    refine ⟨⟨contentHash d.content, recs.map (fun rb => rb.1)⟩, ?_, rfl, ?_⟩
    · rw [hst]
      exact fLookup_cons_self _ _ _
    · rw [hst]
      show ((recs.map (fun rb => (rb.1, rb.2.1))
          ++ erasePath d.path st.index).filter
            (fun x => x.1.1 = d.path)).map (fun x => x.1)
        = recs.map (fun rb => rb.1)
      rw [List.filter_append]
      have h1 : (recs.map (fun rb => (rb.1, rb.2.1))).filter
          (fun x => x.1.1 = d.path) = recs.map (fun rb => (rb.1, rb.2.1)) := by
        rw [List.filter_eq_self]
        intro x hx
        obtain ⟨rb, hrb, hrbe⟩ := List.mem_map.mp hx
        have := recs_keys_path hb rb hrb
        rw [← hrbe]
        simpa using this
      have h2 : (erasePath d.path st.index).filter
          (fun x => x.1.1 = d.path) = [] := by
        rw [List.filter_eq_nil_iff]
        intro x hx
        obtain ⟨x1, x2⟩ := x
        have := (mem_erasePath.mp hx).2
        simpa using this
      rw [h1, h2, List.append_nil, List.map_map]
      rfl

/-- C5: manifest-index consistency is an invariant of every state
reachable by apply calls from the empty state — every chunk id in the
manifest has exactly one EmbeddingRecord and every EmbeddingRecord's
chunk id appears in the manifest — and the per-document apply is
atomic: afterwards the document's manifest entry and its index records
either both still reflect the old state, or the manifest entry carries
the document's new content hash and exactly the chunk ids of the
document's new index records.  Spec-modelled (the indexer is backend
code not in the provided sources). -/
theorem c5_manifest_index_consistency :
    (∀ (embedF : String → Option (List Int)) (st : IState),
      Reach embedF st →
      (∀ cid ∈ manifestIds st, countKey cid st.index = 1)
      ∧ (∀ cid ∈ indexKeys st, cid ∈ manifestIds st))
    ∧ (∀ (embedF : String → Option (List Int)) (st : IState) (d : Doc),
        docView (applyDocOr embedF st d) d.path = docView st d.path
        ∨ ∃ e, fLookup d.path (applyDocOr embedF st d).manifest = some e
            ∧ e.docHash = contentHash d.content
            ∧ ((applyDocOr embedF st d).index.filter
                (fun x => x.1.1 = d.path)).map (fun x => x.1)
              = e.chunkIds) := by
  refine ⟨?_, applyDoc_atomic⟩
  intro embedF st hreach
  obtain ⟨hmn, hin, hown, hiff⟩ := reach_wf hreach
  refine ⟨?_, ?_⟩
  · intro cid hcid
    rw [countKey_eq_count]
    exact List.count_eq_one_of_mem hin ((hiff cid).mp hcid)
  · intro cid hcid
    exact (hiff cid).mpr hcid

/-- C5 witness: the consistency part applied to the concrete state
reached by one apply pass that indexes a single one-section document. -/
theorem c5_manifest_index_consistency_witness :
    countKey (("a.md", 0) : ChunkId)
      (applyP (fun _ => some [7]) emptyState
        ⟨[⟨"a.md", "qdrant", "guides", "# T\nbody"⟩], [], [], []⟩).1.index
      = 1 :=
  (c5_manifest_index_consistency.1 (fun _ => some [7])
    (applyP (fun _ => some [7]) emptyState
      ⟨[⟨"a.md", "qdrant", "guides", "# T\nbody"⟩], [], [], []⟩).1
    (Reach.step emptyState
      ⟨[⟨"a.md", "qdrant", "guides", "# T\nbody"⟩], [], [], []⟩
      Reach.init)).1
    ("a.md", 0) (by decide)

end RagDocs.Backend

namespace RagDocs.Backend

/-- C6 witness: after an apply pass that indexes only "a.md", the
records of the untouched document "b.md" are exactly as before (here:
absent, as in the empty initial state). -/
theorem c6_incremental_reindex_witness :
    fLookup (("b.md", 0) : ChunkId)
      (applyP (fun _ => some [7]) emptyState
        ⟨[⟨"a.md", "qdrant", "guides", "# T\nbody"⟩], [], [], []⟩).1.index
      = none := by
  cases ha : applyDoc (fun _ => some [7]) emptyState
      ⟨"a.md", "qdrant", "guides", "# T\nbody"⟩ with
  | none => exact absurd ha (by decide)
  | some p =>
    obtain ⟨st', emb⟩ := p
    have h := (c6_incremental_reindex (fun _ => some [7]) emptyState
      ⟨"a.md", "qdrant", "guides", "# T\nbody"⟩ st' emb ha).2
      ⟨[⟨"a.md", "qdrant", "guides", "# T\nbody"⟩], [], [], []⟩
      ("b.md", 0) (by decide) (by decide)
    rw [h]
    rfl

end RagDocs.Backend
namespace RagDocs.Backend

theorem removeDocs_manifest :
    ∀ (ds : List String) (st : IState) (p : String), p ∉ ds →
    fLookup p (ds.foldl removeDoc st).manifest = fLookup p st.manifest := by
  intro ds
  induction ds with
  | nil => intro st p _; rfl
  | cons q t ih =>
    intro st p hp
    simp only [List.foldl_cons]
    rw [ih _ _ (fun hx => hp (List.mem_cons_of_mem _ hx))]
    exact fLookup_eraseKey_ne _ (fun hx => hp (hx ▸ List.mem_cons_self _ _))

theorem removeDocs_keys :
    ∀ (ds : List String) (st : IState) (q : String),
    q ∈ (ds.foldl removeDoc st).manifest.map (fun e => e.1) →
    q ∈ st.manifest.map (fun e => e.1) ∧ q ∉ ds := by
  intro ds
  induction ds with
  | nil =>
    intro st q hq
    exact ⟨hq, by simp⟩
  | cons p t ih =>
    intro st q hq
    simp only [List.foldl_cons] at hq
    obtain ⟨hq1, hq2⟩ := ih _ _ hq
    have hq3 : q ∈ st.manifest.map (fun e => e.1) ∧ q ≠ p := by
      obtain ⟨⟨a, b⟩, hab, hae⟩ := List.mem_map.mp hq1
      simp only at hae
      subst hae
      obtain ⟨hab0, hne⟩ := mem_eraseKey.mp hab
      exact ⟨List.mem_map.mpr ⟨(a, b), hab0, rfl⟩, hne⟩
    refine ⟨hq3.1, ?_⟩
    intro hx
    rcases List.mem_cons.mp hx with hx | hx
    · exact hq3.2 hx
    · exact hq2 hx

theorem applyDoc_total {embedF : String → Option (List Int)}
    (hok : ∀ s, (embedF s).isSome = true) (st : IState) (d : Doc) :
    ∃ st' emb, applyDoc embedF st d = some (st', emb) := by
  have h : (buildRecs embedF st.index (processDoc d)).isSome = true :=
    buildRecs_total hok (processDoc d)
  cases hb : buildRecs embedF st.index (processDoc d) with
  | none => rw [hb] at h; simp at h
  | some recs =>
    refine ⟨⟨(d.path, ⟨contentHash d.content, recs.map (fun rb => rb.1)⟩) ::
        eraseKey d.path st.manifest,
      recs.map (fun rb => (rb.1, rb.2.1)) ++ erasePath d.path st.index⟩,
      (recs.filter (fun rb => rb.2.2)).map (fun rb => rb.1), ?_⟩
    unfold applyDoc
    rw [hb]

theorem applyFold_manifest {embedF : String → Option (List Int)}
    (hok : ∀ s, (embedF s).isSome = true) :
    ∀ (docs : List Doc) (acc : IState × List ChunkId) (p : String),
    (docs.map Doc.path).Nodup →
    fLookup p ((docs.foldl (applyStep embedF) acc).1).manifest
      = match docs.find? (fun d => d.path = p) with
        | some d => some ⟨contentHash d.content,
            (processDoc d).map (fun c => c.id)⟩
        | none => fLookup p acc.1.manifest := by
  intro docs
  induction docs with
  | nil => intro acc p _; rfl
  | cons d t ih =>
    intro acc p hnd
    simp only [List.map_cons, List.nodup_cons] at hnd
    obtain ⟨hdp, hndt⟩ := hnd
    obtain ⟨st', emb, ha⟩ := applyDoc_total hok acc.1 d
    obtain ⟨recs, hb, hst, _⟩ := applyDoc_some ha
    simp only [List.foldl_cons]
    have hstep : applyStep embedF acc d = (st', acc.2 ++ emb) := by
      unfold applyStep
      rw [ha]
    rw [hstep, ih _ p hndt]
    by_cases hp : d.path = p
    · have hfind : t.find? (fun d => d.path = p) = none := by
        rw [List.find?_eq_none]
        intro x hx
        simp only [decide_eq_true_eq]
        intro hxp
        exact hdp (by rw [hp, ← hxp]; exact List.mem_map.mpr ⟨x, hx, rfl⟩)
      rw [hfind]
      have hfind2 : (d :: t).find? (fun d => d.path = p) = some d := by
        simp [List.find?_cons, hp]
      rw [hfind2, hst]
      show fLookup p ((d.path, (⟨contentHash d.content,
          recs.map (fun rb => rb.1)⟩ : MEntry)) ::
          eraseKey d.path acc.1.manifest) = _
      rw [hp, fLookup_cons_self, buildRecs_keys hb]
    · have hfind2 : (d :: t).find? (fun d => d.path = p)
          = t.find? (fun d => d.path = p) := by
        simp [List.find?_cons, hp]
      rw [hfind2]
      cases hf : t.find? (fun d => d.path = p) with
      | some d' => rfl
      | none =>
        rw [hst]
        show fLookup p ((d.path, (⟨contentHash d.content,
            recs.map (fun rb => rb.1)⟩ : MEntry)) ::
            eraseKey d.path acc.1.manifest) = _
        rw [fLookup_cons_ne _ _ hp,
          fLookup_eraseKey_ne _ (fun hx => hp hx.symm)]

theorem applyFold_keys {embedF : String → Option (List Int)} :
    ∀ (docs : List Doc) (acc : IState × List ChunkId) (q : String),
    q ∈ ((docs.foldl (applyStep embedF) acc).1).manifest.map (fun e => e.1) →
    q ∈ docs.map Doc.path ∨ q ∈ acc.1.manifest.map (fun e => e.1) := by
  intro docs
  induction docs with
  | nil => intro acc q hq; exact Or.inr hq
  | cons d t ih =>
    intro acc q hq
    simp only [List.foldl_cons] at hq
    rcases ih _ q hq with hx | hx
    · exact Or.inl (List.mem_cons_of_mem _ hx)
    · unfold applyStep at hx
      cases ha : applyDoc embedF acc.1 d with
      | none =>
        rw [ha] at hx
        exact Or.inr hx
      | some pr =>
        obtain ⟨st', emb⟩ := pr
        rw [ha] at hx
        obtain ⟨recs, hb, hst, _⟩ := applyDoc_some ha
        rw [hst] at hx
        simp only [List.map_cons] at hx
        rcases List.mem_cons.mp hx with hx | hx
        · exact Or.inl (by rw [hx]; exact List.mem_cons_self _ _)
        · obtain ⟨⟨a, b⟩, hab, hae⟩ := List.mem_map.mp hx
          simp only at hae
          subst hae
          exact Or.inr (List.mem_map.mpr ⟨(a, b),
            (mem_eraseKey.mp hab).1, rfl⟩)

end RagDocs.Backend
namespace RagDocs.Backend

theorem track_docs_nodup (m : List (String × MEntry)) (fs : List Doc)
    (h : (fs.map Doc.path).Nodup) :
    (((track m fs).added ++ (track m fs).modified).map Doc.path).Nodup := by
  rw [List.map_append]
  refine List.Nodup.append ?_ ?_ ?_
  · exact ((List.filter_sublist fs).map Doc.path).nodup h
  · exact ((List.filter_sublist fs).map Doc.path).nodup h
  · intro q hq1 hq2
    obtain ⟨d1, hd1, hd1e⟩ := List.mem_map.mp hq1
    obtain ⟨d2, hd2, hd2e⟩ := List.mem_map.mp hq2
    obtain ⟨hd1f, hp1⟩ := List.mem_filter.mp hd1
    obtain ⟨hd2f, hp2⟩ := List.mem_filter.mp hd2
    have hd12 : d1 = d2 :=
      List.inj_on_of_nodup_map h hd1f hd2f (hd1e.trans hd2e.symm)
    subst hd12
    simp only [decide_eq_true_eq] at hp1
    rw [hp1] at hp2
    simp at hp2

theorem fullPass_entry {embedF : String → Option (List Int)}
    (hok : ∀ s, (embedF s).isSome = true) {fs : List Doc}
    (hnd : (fs.map Doc.path).Nodup) (st : IState) :
    ∀ d ∈ fs, ∃ ids, fLookup d.path (fullPass embedF st fs).manifest
      = some ⟨contentHash d.content, ids⟩ := by
  intro d hd
  show ∃ ids, fLookup d.path (applyP embedF st (track st.manifest fs)).1.manifest
    = some ⟨contentHash d.content, ids⟩
  unfold applyP
  rw [applyFold_manifest hok _ _ _ (track_docs_nodup st.manifest fs hnd)]
  cases hf : ((track st.manifest fs).added
      ++ (track st.manifest fs).modified).find?
      (fun x => x.path = d.path) with
  | some d' =>
    have hd'mem := List.mem_of_find?_eq_some hf
    have hd'p : d'.path = d.path := by
      have := List.find?_some hf
      simpa using this
    have hd'fs : d' ∈ fs := by
      rcases List.mem_append.mp hd'mem with hx | hx
      · exact (List.mem_filter.mp hx).1
      · exact (List.mem_filter.mp hx).1
    have hdd : d' = d := List.inj_on_of_nodup_map hnd hd'fs hd hd'p
    subst hdd
    exact ⟨(processDoc d').map (fun c => c.id), rfl⟩
  | none =>
    cases hm : fLookup d.path st.manifest with
    | none =>
      have hadd : d ∈ (track st.manifest fs).added := by
        refine List.mem_filter.mpr ⟨hd, ?_⟩
        simp [hm]
      have := List.find?_eq_none.mp hf d
        (List.mem_append.mpr (Or.inl hadd))
      simp at this
    | some e =>
      by_cases hh : e.docHash = contentHash d.content
      · have hdel : d.path ∉ (track st.manifest fs).deleted := by
          intro hx
          have h2 := (List.mem_filter.mp hx).2
          simp only [List.all_eq_true, decide_eq_true_eq] at h2
          exact h2 d hd rfl
        rw [removeDocs_manifest _ _ _ hdel, hm]
        obtain ⟨eh, eids⟩ := e
        simp only at hh
        rw [hh]
        exact ⟨eids, rfl⟩
      · have hmod : d ∈ (track st.manifest fs).modified := by
          refine List.mem_filter.mpr ⟨hd, ?_⟩
          simp [hm, hh]
        have := List.find?_eq_none.mp hf d
          (List.mem_append.mpr (Or.inr hmod))
        simp at this

theorem fullPass_keys {embedF : String → Option (List Int)}
    {st : IState} {fs : List Doc} :
    ∀ q ∈ (fullPass embedF st fs).manifest.map (fun e => e.1),
    ∃ d ∈ fs, d.path = q := by
  intro q hq
  rcases applyFold_keys _ _ _ hq with hx | hx
  · obtain ⟨d, hd, hde⟩ := List.mem_map.mp hx
    have hdfs : d ∈ fs := by
      rcases List.mem_append.mp hd with hy | hy
      · exact (List.mem_filter.mp hy).1
      · exact (List.mem_filter.mp hy).1
    exact ⟨d, hdfs, hde⟩
  · obtain ⟨hk, hnmem⟩ := removeDocs_keys _ _ _ hx
    by_contra hno
    push_neg at hno
    apply hnmem
    show q ∈ (st.manifest.map (fun e => e.1)).filter
      (fun p => fs.all (fun d => d.path ≠ p))
    refine List.mem_filter.mpr ⟨hk, ?_⟩
    simp only [List.all_eq_true, decide_eq_true_eq]
    intro d hd
    exact hno d hd

/-- C7: indexing is idempotent.  After one full pass (a Change-Tracker
run followed by apply) over a fixed filesystem whose document paths are
distinct, with an embedder that never fails, a second Change-Tracker
run yields empty added, modified and deleted sets with every document
unchanged, and a second full pass leaves the manifest and the index
byte-for-byte identical (the state is equal as data).  Spec-modelled
(the tracker and indexer are backend code not in the provided
sources). -/
theorem c7_idempotent_indexing :
    ∀ (embedF : String → Option (List Int)) (st : IState) (fs : List Doc),
    (∀ s, (embedF s).isSome = true) → (fs.map Doc.path).Nodup →
    track (fullPass embedF st fs).manifest fs
      = ⟨[], [], fs, []⟩
    ∧ fullPass embedF (fullPass embedF st fs) fs = fullPass embedF st fs := by
  intro embedF st fs hok hnd
  have h1 := fullPass_entry hok hnd st
  have h2 : ∀ q ∈ (fullPass embedF st fs).manifest.map (fun e => e.1),
      ∃ d ∈ fs, d.path = q := fullPass_keys
  have ha : fs.filter
      (fun d => fLookup d.path (fullPass embedF st fs).manifest = none)
      = [] := by
    rw [List.filter_eq_nil_iff]
    intro d hd
    obtain ⟨ids, hids⟩ := h1 d hd
    simp [hids]
  have hm : fs.filter (fun d =>
      match fLookup d.path (fullPass embedF st fs).manifest with
      | some e => e.docHash ≠ contentHash d.content
      | none => False) = [] := by
    rw [List.filter_eq_nil_iff]
    intro d hd
    obtain ⟨ids, hids⟩ := h1 d hd
    simp [hids]
  have hu : fs.filter (fun d =>
      match fLookup d.path (fullPass embedF st fs).manifest with
      | some e => e.docHash = contentHash d.content
      | none => False) = fs := by
    rw [List.filter_eq_self]
    intro d hd
    obtain ⟨ids, hids⟩ := h1 d hd
    simp [hids]
  have hdl : ((fullPass embedF st fs).manifest.map (fun p => p.1)).filter
      (fun p => fs.all (fun d => d.path ≠ p)) = [] := by
    rw [List.filter_eq_nil_iff]
    intro q hq
    obtain ⟨d, hd, hdq⟩ := h2 q hq
    simp only [List.all_eq_true, decide_eq_true_eq, not_forall]
    exact ⟨d, hd, fun hne => hne hdq⟩
  have htrack : track (fullPass embedF st fs).manifest fs
      = ⟨[], [], fs, []⟩ := by
    unfold track
    rw [ha, hm, hu, hdl]
  refine ⟨htrack, ?_⟩
  show (applyP embedF (fullPass embedF st fs)
      (track (fullPass embedF st fs).manifest fs)).1 = fullPass embedF st fs
  rw [htrack]
  rfl

/-- C7 witness: the idempotence theorem applied to a concrete one-file
filesystem and a total embedder. -/
theorem c7_idempotent_indexing_witness :
    track (fullPass (fun _ => some [7]) emptyState
        [⟨"a.md", "qdrant", "guides", "# T\nbody"⟩]).manifest
      [⟨"a.md", "qdrant", "guides", "# T\nbody"⟩]
      = ⟨[], [], [⟨"a.md", "qdrant", "guides", "# T\nbody"⟩], []⟩ :=
  (c7_idempotent_indexing (fun _ => some [7]) emptyState
    [⟨"a.md", "qdrant", "guides", "# T\nbody"⟩]
    (fun _ => rfl) (by decide)).1

end RagDocs.Backend
